import Mathlib

set_option autoImplicit false
set_option linter.unusedSectionVars false

/-!
Verification of the indexed bounded min-heap `EHeapQ<T, Compare>` from
`src/fext/eheapq.hpp`.  The C++ class is shallowly embedded: the backing
`std::vector<T>` becomes a `List T`, the `std::unordered_map<T, size_t>`
position index becomes an association list with unique keys, the comparator
becomes a function `T → T → Except E Bool` (it may fail, like the injected
predicate in the source), and every operation threads the state explicitly,
returning the state it leaves behind both on success and on failure (C++
exceptions leave the mutated object behind, so errors carry the state too).
All loops are translated with an explicit fuel argument equal to the bound
the C++ loop variable respects, so that every definition is structurally
recursive and evaluates by kernel reduction.
-/

namespace Fext

/-- Failure conditions of `EHeapQ`: the four exception classes of
`eheapq.hpp`, plus `comp e` for a failure raised by the injected comparator,
`atFail` for `std::out_of_range` raised by `unordered_map::at` on a missing
key, and `ub` for an out-of-bounds access through `vector::data()[...]`,
which is undefined behaviour in the source and is modelled conservatively as
a failure. -/
inductive Err (E : Type) : Type
  | empty
  | notFound
  | alreadyPresent
  | noLast
  | comp (e : E)
  | atFail
  | ub
deriving DecidableEq

/-- `index_map->find(k)`: position recorded for key `k`, if any. -/
def mapFind {T : Type} [DecidableEq T] (ix : List (T × Nat)) (k : T) : Option Nat :=
  (ix.find? (fun p => decide (p.1 = k))).map (fun p => p.2)

/-- `index_map->find(k) != index_map->end()`. -/
def mapContains {T : Type} [DecidableEq T] (ix : List (T × Nat)) (k : T) : Bool :=
  (mapFind ix k).isSome

/-- `index_map->insert({k, v})`: like `std::unordered_map::insert`, a no-op
when the key is already present. -/
def mapInsert {T : Type} [DecidableEq T] (ix : List (T × Nat)) (k : T) (v : Nat) :
    List (T × Nat) :=
  if mapContains ix k then ix else (k, v) :: ix

/-- `index_map->erase(k)`: removes the entry for `k` (keys are unique in an
`unordered_map`, so filtering removes at most the one entry). -/
def mapErase {T : Type} [DecidableEq T] (ix : List (T × Nat)) (k : T) : List (T × Nat) :=
  ix.filter (fun p => decide (p.1 ≠ k))

/-- `index_map->at(k) = v`: updates the entry for `k`; `none` models the
`std::out_of_range` exception when `k` has no entry. -/
def mapAtSet {T : Type} [DecidableEq T] (ix : List (T × Nat)) (k : T) (v : Nat) :
    Option (List (T × Nat)) :=
  if mapContains ix k then some (ix.map (fun p => if p.1 = k then (k, v) else p)) else none

/-- The state of an `EHeapQ<T, Compare>` object: the backing vector, the
key-to-position index, the capacity bound `size`, and the two caches, each a
value field plus a `bool` flag exactly as in the source (the value fields
are uninitialised in the C++ constructor and only read under a true flag). -/
structure EHeapQ (T : Type) : Type where
  heap : List T
  index : List (T × Nat)
  size : Nat
  last_item : T
  last_item_set : Bool
  max_item : T
  max_item_set : Bool
deriving DecidableEq

/-- The constructor `EHeapQ(size_t size)`: empty vector, empty index, both
cache flags false.  The uninitialised cache values are modelled by
`default`; they are only ever read when the corresponding flag is true. -/
def EHeapQ.init {T : Type} [Inhabited T] (size : Nat) : EHeapQ T :=
  { heap := [], index := [], size := size,
    last_item := default, last_item_set := false,
    max_item := default, max_item_set := false }

/-- Read of `heap->data()[i]` / `heap->at(i)` at an index the source
guarantees to be in bounds. -/
def gv {T : Type} [Inhabited T] (l : List T) (i : Nat) : T := l.getD i default

/-- Parent position in the 0-indexed complete binary tree: `(i - 1) >> 1`. -/
def parentIdx (i : Nat) : Nat := (i - 1) / 2

section Ops

variable {T : Type} [DecidableEq T] [Inhabited T] {E : Type}

/-- Loop body of `EHeapQ::siftdown` (lines 174-189): follow the path to the
root from `pos` down to `startpos`, swapping the moving item with its parent
while the comparator says it is smaller.  The vector writes happen before
the two `index_map->at` updates, and a failure of either leaves the already
performed mutations behind, exactly as in the source.  The fuel is `pos` at
the call site; since `pos` strictly decreases, it is never exhausted. -/
def siftdownGo (cmp : T → T → Except E Bool) (startpos : Nat) :
    Nat → Nat → EHeapQ T → Except (Err E) Unit × EHeapQ T
  | 0, _, st => (.ok (), st)
  | fuel + 1, pos, st =>
    if startpos < pos then
      let parentpos := parentIdx pos
      let newitem := gv st.heap pos
      let parent := gv st.heap parentpos
      match cmp newitem parent with
      | .error e => (.error (.comp e), st)
      | .ok false => (.ok (), st)
      | .ok true =>
        let heap1 := (st.heap.set parentpos newitem).set pos parent
        match mapAtSet st.index newitem parentpos with
        | none => (.error .atFail, { st with heap := heap1 })
        | some ix1 =>
          match mapAtSet ix1 parent pos with
          | none => (.error .atFail, { st with heap := heap1, index := ix1 })
          | some ix2 =>
            siftdownGo cmp startpos fuel parentpos { st with heap := heap1, index := ix2 }
    else (.ok (), st)

/-- `EHeapQ::siftdown(startpos, pos)` (lines 161-190), including the
initial early return on an empty vector. -/
def siftdown (cmp : T → T → Except E Bool) (startpos pos : Nat) (st : EHeapQ T) :
    Except (Err E) Unit × EHeapQ T :=
  if st.heap.length = 0 then (.ok (), st)
  else siftdownGo cmp startpos pos pos st

/-- Loop body of `EHeapQ::siftup` (lines 206-222): bubble the smaller child
up (swapping it with the moving item) until `pos` has no child, returning
the final `pos`.  The fuel is `endpos` at the call site; since `pos`
strictly increases below `endpos / 2`, it is never exhausted. -/
def siftupGo (cmp : T → T → Except E Bool) (endpos : Nat) :
    Nat → Nat → EHeapQ T → Except (Err E) Nat × EHeapQ T
  | 0, pos, st => (.ok pos, st)
  | fuel + 1, pos, st =>
    if pos < endpos / 2 then
      let childpos := 2 * pos + 1
      match (if childpos + 1 < endpos then
               match cmp (gv st.heap childpos) (gv st.heap (childpos + 1)) with
               | .error e => .error e
               | .ok b => .ok (if b then childpos else childpos + 1)
             else (.ok childpos : Except E Nat)) with
      | .error e => (.error (.comp e), st)
      | .ok childsel =>
        let tmp1 := gv st.heap childsel
        let tmp2 := gv st.heap pos
        let heap1 := (st.heap.set childsel tmp2).set pos tmp1
        match mapAtSet st.index tmp2 childsel with
        | none => (.error .atFail, { st with heap := heap1 })
        | some ix1 =>
          match mapAtSet ix1 tmp1 pos with
          | none => (.error .atFail, { st with heap := heap1, index := ix1 })
          | some ix2 =>
            siftupGo cmp endpos fuel childsel { st with heap := heap1, index := ix2 }
    else (.ok pos, st)

/-- `EHeapQ::siftup(pos)` (lines 192-226): bubble the smaller child up to a
leaf, then sift the moved item back toward `pos` with
`siftdown(startpos, pos)`. -/
def siftup (cmp : T → T → Except E Bool) (pos : Nat) (st : EHeapQ T) :
    Except (Err E) Unit × EHeapQ T :=
  let endpos := st.heap.length
  match siftupGo cmp endpos endpos pos st with
  | (.error e, st1) => (.error e, st1)
  | (.ok finalpos, st1) => siftdown cmp pos finalpos st1

/-- `set_last_item` (line 111). -/
def set_last_item (item : T) (st : EHeapQ T) : EHeapQ T :=
  { st with last_item := item, last_item_set := true }

/-- `set_max_item` (line 112). -/
def set_max_item (item : T) (st : EHeapQ T) : EHeapQ T :=
  { st with max_item := item, max_item_set := true }

/-- `maybe_del_last_item` (line 114). -/
def maybe_del_last_item (item : T) (st : EHeapQ T) : EHeapQ T :=
  if st.last_item_set ∧ st.last_item = item then { st with last_item_set := false } else st

/-- `maybe_del_max_item` (line 115). -/
def maybe_del_max_item (item : T) (st : EHeapQ T) : EHeapQ T :=
  if st.max_item_set ∧ st.max_item = item then { st with max_item_set := false } else st

/-- `maybe_adjust_max` (lines 116-122).  The member is declared `noexcept`
but calls the comparator; a comparator failure there would terminate the
program, which is modelled as a propagated failure. -/
def maybe_adjust_max (cmp : T → T → Except E Bool) (item : T) (st : EHeapQ T) :
    Except (Err E) Unit × EHeapQ T :=
  if st.max_item_set = false then (.ok (), st)
  else
    match cmp st.max_item item with
    | .error e => (.error (.comp e), st)
    | .ok true => (.ok (), { st with max_item := item })
    | .ok false => (.ok (), st)

/-- `EHeapQ::get_top` (line 65). -/
def get_top (st : EHeapQ T) : Except (Err E) T × EHeapQ T :=
  if st.heap.length = 0 then (.error .empty, st) else (.ok (gv st.heap 0), st)

/-- `EHeapQ::get_last` (lines 66-76). -/
def get_last (st : EHeapQ T) : Except (Err E) T × EHeapQ T :=
  if st.heap.length = 0 then (.error .empty, st)
  else if st.last_item_set = false then (.error .noLast, st)
  else (.ok st.last_item, st)

/-- `EHeapQ::get_max` (lines 144-159): empty check, cached value if the flag
is set, otherwise a scan of positions `length / 2 … length - 1`.  Note that
the source assigns `max_item = result` at line 157 but never sets
`max_item_set` on this path. -/
def maxScanGo (cmp : T → T → Except E Bool) (l : List T) :
    Nat → Nat → T → Except (Err E) T
  | 0, _, res => .ok res
  | fuel + 1, i, res =>
    if i < l.length then
      match cmp res (gv l i) with
      | .error e => .error (.comp e)
      | .ok true => maxScanGo cmp l fuel (i + 1) (gv l i)
      | .ok false => maxScanGo cmp l fuel (i + 1) res
    else .ok res

/-- `EHeapQ::get_max` (lines 144-159). -/
def get_max (cmp : T → T → Except E Bool) (st : EHeapQ T) :
    Except (Err E) T × EHeapQ T :=
  if st.heap.length = 0 then (.error .empty, st)
  else if st.max_item_set then (.ok st.max_item, st)
  else
    match maxScanGo cmp st.heap st.heap.length (st.heap.length / 2 + 1)
        (gv st.heap (st.heap.length / 2)) with
    | .error e => (.error e, st)
    | .ok result => (.ok result, { st with max_item := result })

/-- `EHeapQ::pushpop` (lines 228-248). -/
def pushpop (cmp : T → T → Except E Bool) (item : T) (st : EHeapQ T) :
    Except (Err E) T × EHeapQ T :=
  if mapContains st.index item then (.error .alreadyPresent, st)
  else if 0 < st.heap.length then
    match cmp (gv st.heap 0) item with
    | .error e => (.error (.comp e), st)
    | .ok true =>
      let to_return := gv st.heap 0
      let st1 := { st with
                   heap := st.heap.set 0 item,
                   index := mapErase (mapInsert st.index item 0) to_return }
      match siftup cmp 0 st1 with
      | (.error e, st2) => (.error e, st2)
      | (.ok _, st2) =>
        let st3 := set_last_item item st2
        let st4 := maybe_del_max_item item st3
        match maybe_adjust_max cmp item st4 with
        | (.error e, st5) => (.error e, st5)
        | (.ok _, st5) => (.ok to_return, st5)
    | .ok false => (.ok item, st)
  else (.ok item, st)

/-- `EHeapQ::push` (lines 250-277), including the `catch (...)` handler that
erases the pushed item from the index and pops the vector's back before
rethrowing. -/
def push (cmp : T → T → Except E Bool) (item : T) (st : EHeapQ T) :
    Except (Err E) Unit × EHeapQ T :=
  if mapContains st.index item then (.error .alreadyPresent, st)
  else if st.heap.length = st.size then
    match pushpop cmp item st with
    | (.error e, st1) => (.error e, st1)
    | (.ok _, st1) => (.ok (), st1)
  else
    let st1 := { st with
                 index := mapInsert st.index item st.heap.length,
                 heap := st.heap ++ [item] }
    match siftdown cmp 0 (st1.heap.length - 1) st1 with
    | (.error e, st2) =>
      (.error e, { st2 with index := mapErase st2.index item, heap := st2.heap.dropLast })
    | (.ok _, st2) =>
      let st3 := set_last_item item st2
      if st3.heap.length = 1 then (.ok (), set_max_item item st3)
      else
        match maybe_adjust_max cmp item st3 with
        | (.error e, st4) => (.error e, st4)
        | (.ok _, st4) => (.ok (), st4)

/-- Common tail of `EHeapQ::pop` (lines 290-298): `pop_back`, index erase,
`siftup(0)`, cache invalidation. -/
def popTail (cmp : T → T → Except E Bool) (result : T) (st : EHeapQ T) :
    Except (Err E) T × EHeapQ T :=
  match siftup cmp 0 st with
  | (.error e, st1) => (.error e, st1)
  | (.ok _, st1) => (.ok result, maybe_del_max_item result (maybe_del_last_item result st1))

/-- `EHeapQ::pop` (lines 279-299). -/
def pop (cmp : T → T → Except E Bool) (st : EHeapQ T) :
    Except (Err E) T × EHeapQ T :=
  if st.heap.length = 0 then (.error .empty, st)
  else
    let result := gv st.heap 0
    if 1 < st.heap.length then
      let back := gv st.heap (st.heap.length - 1)
      let heap1 := st.heap.set 0 back
      match mapAtSet st.index back 0 with
      | none => (.error .atFail, { st with heap := heap1 })
      | some ix1 =>
        popTail cmp result { st with heap := heap1.dropLast, index := mapErase ix1 result }
    else
      popTail cmp result { st with heap := st.heap.dropLast, index := mapErase st.index result }

/-- `EHeapQ::replace` (lines 309-329).  Note lines 324 and 326 pass
`result` (the evicted root), not `item`, to `set_last_item` and
`maybe_adjust_max`. -/
def replace (cmp : T → T → Except E Bool) (item : T) (st : EHeapQ T) :
    Except (Err E) T × EHeapQ T :=
  if st.heap.length = 0 then (.error .empty, st)
  else if mapContains st.index item then (.error .alreadyPresent, st)
  else
    let result := gv st.heap 0
    let st1 := { st with
                 index := mapInsert (mapErase st.index result) item 0,
                 heap := st.heap.set 0 item }
    match siftup cmp 0 st1 with
    | (.error e, st2) => (.error e, st2)
    | (.ok _, st2) =>
      let st3 := set_last_item result st2
      let st4 := maybe_del_max_item result st3
      match maybe_adjust_max cmp result st4 with
      | (.error e, st5) => (.error e, st5)
      | (.ok _, st5) => (.ok result, st5)

/-- The `end:` label of `EHeapQ::remove` (lines 357-359): max cache
invalidation, then last cache invalidation. -/
def removeEnd (item : T) (st : EHeapQ T) : EHeapQ T :=
  maybe_del_last_item item (maybe_del_max_item item st)

/-- `EHeapQ::remove` (lines 331-360).  Note that after moving the tail
element into the vacated slot the source never assigns its index entry
directly; only the sift swaps update the index.  When `size == 0` or
`idx >= size` on the non-tail path, `heap->data()[idx] = heap->data()[size-1]`
is an out-of-bounds access (undefined behaviour), modelled as `.ub`. -/
def remove (cmp : T → T → Except E Bool) (item : T) (st : EHeapQ T) :
    Except (Err E) Unit × EHeapQ T :=
  match mapFind st.index item with
  | none => (.error .notFound, st)
  | some idx =>
    if 0 < st.heap.length ∧ gv st.heap (st.heap.length - 1) = item then
      (.ok (), removeEnd item { st with
                                heap := st.heap.dropLast,
                                index := mapErase st.index item })
    else if st.heap.length = 0 ∨ st.heap.length ≤ idx then (.error .ub, st)
    else
      let st1 := { st with
                   heap := (st.heap.set idx (gv st.heap (st.heap.length - 1))).dropLast,
                   index := mapErase st.index item }
      if idx < st1.heap.length then
        match siftup cmp idx st1 with
        | (.error e, st2) => (.error e, st2)
        | (.ok _, st2) =>
          match siftdown cmp 0 idx st2 with
          | (.error e, st3) => (.error e, st3)
          | (.ok _, st3) => (.ok (), removeEnd item st3)
      else (.ok (), removeEnd item st1)

/-- Loop of `EHeapQ::set_size` (lines 305-306): pop while over capacity.
The fuel is the vector length at entry; each successful pop shortens the
vector by one, so the fuel is never exhausted. -/
def set_sizeGo (cmp : T → T → Except E Bool) :
    Nat → EHeapQ T → Except (Err E) Unit × EHeapQ T
  | 0, st => (.ok (), st)
  | fuel + 1, st =>
    if st.size < st.heap.length then
      match pop cmp st with
      | (.error e, st1) => (.error e, st1)
      | (.ok _, st1) => set_sizeGo cmp fuel st1
    else (.ok (), st)

/-- `EHeapQ::set_size` (lines 301-307). -/
def set_size (cmp : T → T → Except E Bool) (k : Nat) (st : EHeapQ T) :
    Except (Err E) Unit × EHeapQ T :=
  set_sizeGo cmp st.heap.length { st with size := k }

/-- One public operation of the interface, used to describe call
sequences. -/
inductive Op (T : Type) : Type
  | push (x : T)
  | pushpop (x : T)
  | pop
  | replace (x : T)
  | remove (x : T)
  | set_size (k : Nat)
  | get_top
  | get_last
  | get_max

/-- Forgets the returned value of an operation, keeping success/failure and
the resulting state. -/
def dropRes {α : Type} : Except (Err E) α × EHeapQ T → Except (Err E) Unit × EHeapQ T
  | (.ok _, st) => (.ok (), st)
  | (.error e, st) => (.error e, st)

/-- Applies one public operation to the state. -/
def applyOp (cmp : T → T → Except E Bool) : Op T → EHeapQ T → Except (Err E) Unit × EHeapQ T
  | .push x, st => push cmp x st
  | .pushpop x, st => dropRes (pushpop cmp x st)
  | .pop, st => dropRes (pop cmp st)
  | .replace x, st => dropRes (replace cmp x st)
  | .remove x, st => remove cmp x st
  | .set_size k, st => set_size cmp k st
  | .get_top, st => dropRes (get_top st)
  | .get_last, st => dropRes (get_last st)
  | .get_max, st => dropRes (get_max cmp st)

/-- Runs a sequence of public operations, stopping at the first failure
(the failing operation's final state is returned). -/
def runTrace (cmp : T → T → Except E Bool) : List (Op T) → EHeapQ T → Except (Err E) Unit × EHeapQ T
  | [], st => (.ok (), st)
  | op :: ops, st =>
    match applyOp cmp op st with
    | (.ok _, st1) => runTrace cmp ops st1
    | (.error e, st1) => (.error e, st1)

/-- States reachable from a freshly constructed heap by successful mutating
public operations (`push`, `pushpop`, `pop`, `replace`, `remove`,
`set_size`). -/
inductive Reach (cmp : T → T → Except E Bool) : EHeapQ T → Prop
  | start (s : Nat) : Reach cmp (EHeapQ.init s)
  | step_push {st st1 : EHeapQ T} {x : T} {u : Unit} :
      Reach cmp st → push cmp x st = (.ok u, st1) → Reach cmp st1
  | step_pushpop {st st1 : EHeapQ T} {x r : T} :
      Reach cmp st → pushpop cmp x st = (.ok r, st1) → Reach cmp st1
  | step_pop {st st1 : EHeapQ T} {r : T} :
      Reach cmp st → pop cmp st = (.ok r, st1) → Reach cmp st1
  | step_replace {st st1 : EHeapQ T} {x r : T} :
      Reach cmp st → replace cmp x st = (.ok r, st1) → Reach cmp st1
  | step_remove {st st1 : EHeapQ T} {x : T} {u : Unit} :
      Reach cmp st → remove cmp x st = (.ok u, st1) → Reach cmp st1
  | step_set_size {st st1 : EHeapQ T} {k : Nat} {u : Unit} :
      Reach cmp st → set_size cmp k st = (.ok u, st1) → Reach cmp st1

end Ops

/-- A comparator that never fails, from a boolean strict-weak-order
predicate. -/
def liftOk {T : Type} (lt : T → T → Bool) : T → T → Except Unit Bool :=
  fun a b => .ok (lt a b)

/-- The two laws of a strict weak order actually used by the heap
algorithms: asymmetry, and transitivity of the negation (equivalently,
transitivity of incomparability together with transitivity). -/
structure IsSWO {T : Type} (lt : T → T → Bool) : Prop where
  asymm : ∀ a b, lt a b = true → lt b a = false
  negtrans : ∀ a b c, lt a b = false → lt b c = false → lt a c = false

/-- The heap-order invariant of the spec: no child precedes its parent. -/
def heapOrd {T : Type} [Inhabited T] (lt : T → T → Bool) (l : List T) : Prop :=
  ∀ i, i < l.length → 0 < i → lt (gv l i) (gv l (parentIdx i)) = false

instance {T : Type} [Inhabited T] (lt : T → T → Bool) (l : List T) :
    Decidable (heapOrd lt l) := by
  unfold heapOrd; exact Nat.decidableBallLT _ _

/-- `Anc a i` says that tree position `i` lies in the subtree rooted at
position `a` (equivalently, `a` is obtained from `i` by iterating
`parentIdx`). -/
inductive Anc : Nat → Nat → Prop
  | refl (a : Nat) : Anc a a
  | step {a i : Nat} : 0 < i → Anc a (parentIdx i) → Anc a i

/-- The usual strict order on naturals, as a boolean comparator (the
`std::less<T>` default of the template). -/
def natLt : Nat → Nat → Bool := fun a b => decide (a < b)

/-- A comparator over naturals that behaves like `<` but throws when asked
to compare 1 with 2 (modelling a comparator failure on one specific pair,
as a Python `__lt__` might raise). -/
def cmpThrow12 : Nat → Nat → Except Unit Bool :=
  fun a b => if a = 1 ∧ b = 2 then .error () else .ok (natLt a b)

/-- State after `push 1; push 2; push 3` on a fresh heap of capacity 100
under the natural order: heap `[1, 2, 3]`, index `{3 -> 2, 2 -> 1, 1 -> 0}`. -/
def stPushes123 : EHeapQ Nat :=
  (runTrace (liftOk natLt) [.push 1, .push 2, .push 3] (EHeapQ.init 100)).2

/-- State after additionally calling `remove 2` on `stPushes123`. -/
def stAfterRemove2 : EHeapQ Nat := (remove (liftOk natLt) 2 stPushes123).2

/-- State after `push 3; push 8; push 5` on a fresh heap of capacity 100:
heap `[3, 8, 5]` with the max cache set to 8. -/
def stPushes385 : EHeapQ Nat :=
  (runTrace (liftOk natLt) [.push 3, .push 8, .push 5] (EHeapQ.init 100)).2

/-- State after additionally calling `replace 10` on `stPushes385`:
heap `[5, 8, 10]`. -/
def stAfterReplace10 : EHeapQ Nat := (replace (liftOk natLt) 10 stPushes385).2

/-- State after `push 1; push 2; remove 2`: heap `[1]` with the max cache
flag cleared by the removal of the cached maximum 2. -/
def stMaxUnset : EHeapQ Nat :=
  (runTrace (liftOk natLt) [.push 1, .push 2, .remove 2] (EHeapQ.init 100)).2

/-- State after `push 2; push 5; push 7` under `cmpThrow12` (no failing
comparison occurs on this prefix): heap `[2, 5, 7]`. -/
def stPushes257 : EHeapQ Nat :=
  (runTrace cmpThrow12 [.push 2, .push 5, .push 7] (EHeapQ.init 100)).2

/-- Well-formedness of the position index with respect to the backing
sequence: every entry records the true position of its key, every stored
element is recorded, and keys are unique (as in an `unordered_map`). -/
def WFidx {T : Type} [DecidableEq T] [Inhabited T] (ix : List (T × Nat)) (l : List T) :
    Prop :=
  (∀ p ∈ ix, p.2 < l.length ∧ gv l p.2 = p.1) ∧
  (∀ i, i < l.length → (gv l i, i) ∈ ix) ∧
  (ix.map Prod.fst).Nodup

section ListFacts

variable {T : Type} [Inhabited T]

theorem gv_set_self {l : List T} {i : Nat} (h : i < l.length) (a : T) :
    gv (l.set i a) i = a := by
  rw [gv, List.getD_eq_getElem (l.set i a) default (by simpa using h)]
  exact List.getElem_set_self (by simpa using h)

theorem gv_set_ne {l : List T} {i j : Nat} (h : i ≠ j) (a : T) :
    gv (l.set i a) j = gv l j := by
  by_cases hj : j < l.length
  · rw [gv, gv, List.getD_eq_getElem l default hj,
      List.getD_eq_getElem (l.set i a) default (by simpa using hj)]
    exact List.getElem_set_ne h _
  · rw [gv, gv, List.getD_eq_default l default (by omega),
      List.getD_eq_default _ default (by simpa using Nat.le_of_not_lt hj)]

theorem gv_append_lt {l : List T} {i : Nat} (h : i < l.length) (a : T) :
    gv (l ++ [a]) i = gv l i := by
  rw [gv, gv, List.getD_append _ _ _ _ h]

theorem gv_append_len (l : List T) (a : T) : gv (l ++ [a]) l.length = a := by
  rw [gv, List.getD_append_right _ _ _ _ (Nat.le_refl _)]
  simp

theorem gv_dropLast {l : List T} {i : Nat} (h : i < l.length - 1) :
    gv l.dropLast i = gv l i := by
  rw [gv, gv, List.getD_eq_getElem l.dropLast default (by simpa using h),
    List.getD_eq_getElem l default (by omega), List.getElem_dropLast]

theorem gv_mem {l : List T} {i : Nat} (h : i < l.length) : gv l i ∈ l := by
  rw [gv, List.getD_eq_getElem l default h]
  exact List.getElem_mem h

theorem mem_iff_gv {l : List T} {x : T} :
    x ∈ l ↔ ∃ i, i < l.length ∧ gv l i = x := by
  constructor
  · intro hx
    rcases List.getElem_of_mem hx with ⟨i, hi, he⟩
    exact ⟨i, hi, by rw [gv, List.getD_eq_getElem l default hi, he]⟩
  · rintro ⟨i, hi, rfl⟩
    exact gv_mem hi

theorem set_gv_self (l : List T) (i : Nat) : l.set i (gv l i) = l := by
  by_cases hi : i < l.length
  · apply List.ext_getElem (by simp)
    intro j hj hj2
    by_cases hij : i = j
    · subst hij
      rw [List.getElem_set_self (by simpa using hi), gv,
        List.getD_eq_getElem l default hi]
    · exact List.getElem_set_ne hij _
  · rw [List.set_eq_of_length_le (by omega)]

theorem cons_set_perm {t : List T} {i : Nat} (h : i < t.length) (b : T) :
    (gv t i :: t.set i b).Perm (b :: t) := by
  induction t generalizing i with
  | nil => simp at h
  | cons y s ih =>
    cases i with
    | zero =>
      have h1 : gv (y :: s) 0 = y := rfl
      simp only [List.set_cons_zero, h1]
      exact List.Perm.swap b y s
    | succ i =>
      have hi : i < s.length := by simpa using h
      have h1 : gv (y :: s) (i + 1) = gv s i := rfl
      simp only [List.set_cons_succ, h1]
      exact (List.Perm.swap y (gv s i) _).trans
        (((ih hi).cons y).trans (List.Perm.swap b y s))

theorem perm_set_swap_lt (l : List T) (p q : Nat) (hlt : p < q) (hq : q < l.length) :
    ((l.set p (gv l q)).set q (gv l p)).Perm l := by
  induction l generalizing p q with
  | nil => simp at hq
  | cons y s ih =>
    cases p with
    | zero =>
      cases q with
      | zero => omega
      | succ q =>
        have hq2 : q < s.length := by simpa using hq
        have h0 : gv (y :: s) (q + 1) = gv s q := rfl
        have h1 : gv (y :: s) 0 = y := rfl
        simp only [List.set_cons_zero, List.set_cons_succ, h0, h1]
        exact cons_set_perm hq2 y
    | succ p =>
      cases q with
      | zero => omega
      | succ q =>
        have hq2 : q < s.length := by simpa using hq
        have h0 : gv (y :: s) (q + 1) = gv s q := rfl
        have h1 : gv (y :: s) (p + 1) = gv s p := rfl
        simp only [List.set_cons_succ, h0, h1]
        exact (ih p q (by omega) hq2).cons y

theorem perm_set_swap (l : List T) (p q : Nat) (hp : p < l.length) (hq : q < l.length) :
    ((l.set p (gv l q)).set q (gv l p)).Perm l := by
  rcases Nat.lt_trichotomy p q with hlt | rfl | hgt
  · exact perm_set_swap_lt l p q hlt hq
  · rw [set_gv_self, set_gv_self]
  · rw [List.set_comm _ _ _ (by omega)]
    exact perm_set_swap_lt l q p hgt hp

end ListFacts

section TreeFacts

theorem parentIdx_lt {i : Nat} (h : 0 < i) : parentIdx i < i := by
  unfold parentIdx; omega

theorem parentIdx_le (i : Nat) : parentIdx i ≤ i := by
  unfold parentIdx; omega

theorem parentIdx_child_left (p : Nat) : parentIdx (2 * p + 1) = p := by
  unfold parentIdx; omega

theorem parentIdx_child_right (p : Nat) : parentIdx (2 * p + 2) = p := by
  unfold parentIdx; omega

/-- Every positive position is one of the two children of its parent. -/
theorem child_of_parent {i : Nat} (h : 0 < i) :
    i = 2 * parentIdx i + 1 ∨ i = 2 * parentIdx i + 2 := by
  unfold parentIdx; omega

theorem Anc.le {a i : Nat} (h : Anc a i) : a ≤ i := by
  induction h with
  | refl => exact Nat.le_refl _
  | step hpos _ ih => exact Nat.le_trans ih (Nat.le_of_lt (parentIdx_lt hpos))

theorem Anc.zero (i : Nat) : Anc 0 i := by
  induction i using Nat.strong_induction_on with
  | _ i ih =>
    cases Nat.eq_zero_or_pos i with
    | inl h => exact h ▸ Anc.refl 0
    | inr h => exact Anc.step h (ih _ (parentIdx_lt h))

/-- Inverting one step: a strict ancestor is an ancestor of the parent. -/
theorem Anc.of_lt {a i : Nat} (h : Anc a i) (hlt : a < i) : Anc a (parentIdx i) := by
  cases h with
  | refl => omega
  | step hpos h2 => exact h2

theorem Anc.pos_of_lt {a i : Nat} (hlt : a < i) : 0 < i := Nat.lt_of_le_of_lt (Nat.zero_le a) hlt

theorem Anc.trans {a b c : Nat} (h1 : Anc a b) (h2 : Anc b c) : Anc a c := by
  induction h2 with
  | refl => exact h1
  | step hpos _ ih => exact Anc.step hpos ih

/-- A non-ancestor of a child that is an ancestor of the parent chain:
if `a` is an ancestor of `i` and `i` is positive, then either `a = i` or
`a` is an ancestor of `parentIdx i`.  (Restatement of the constructors.) -/
theorem Anc.cases_chain {a i : Nat} (h : Anc a i) : a = i ∨ (0 < i ∧ Anc a (parentIdx i)) := by
  cases h with
  | refl => exact Or.inl rfl
  | step hpos h2 => exact Or.inr ⟨hpos, h2⟩

end TreeFacts

section SiftDown

variable {T : Type} [DecidableEq T] [Inhabited T]

/-- `Anc p i` for `p` the parent of a positive `i`. -/
theorem anc_parent {i : Nat} (h : 0 < i) : Anc (parentIdx i) i :=
  Anc.step h (Anc.refl _)

/-- Main specification of the `siftdown` loop under a failure-free
strict-weak-order comparator.  Starting from a state whose heap satisfies
the heap order everywhere except possibly at the edge from `pos` to its
parent, and whose children of `pos` are already no smaller than the value
at `pos`'s parent, a successful run restores the heap order everywhere
except possibly at the edge out of `startpos`, preserves length, size field
and multiset of elements, only modifies positions on the ancestor chain
from `startpos` to `pos`, and moves the value initially at `pos` to some
chain position `f` where it is no smaller than its parent unless
`f = startpos`; other chain positions receive former chain values. -/
theorem siftdownGo_ok (lt : T → T → Bool) (hswo : IsSWO lt) (s : Nat) :
    ∀ (fuel pos : Nat) (st st1 : EHeapQ T) (u : Unit),
      siftdownGo (liftOk lt) s fuel pos st = (.ok u, st1) →
      pos < st.heap.length →
      Anc s pos →
      (∀ i, i < st.heap.length → 0 < i → i ≠ pos →
          lt (gv st.heap i) (gv st.heap (parentIdx i)) = false) →
      (s < pos → ∀ c, (c = 2 * pos + 1 ∨ c = 2 * pos + 2) → c < st.heap.length →
          lt (gv st.heap c) (gv st.heap (parentIdx pos)) = false) →
      pos ≤ fuel →
      st1.heap.length = st.heap.length ∧
      st1.size = st.size ∧
      st1.heap.Perm st.heap ∧
      (∀ i, i < st.heap.length → 0 < i → i ≠ s →
          lt (gv st1.heap i) (gv st1.heap (parentIdx i)) = false) ∧
      (∀ i, i < st.heap.length → ¬(Anc s i ∧ Anc i pos) → gv st1.heap i = gv st.heap i) ∧
      (∃ f, Anc s f ∧ Anc f pos ∧ f < st.heap.length ∧
        gv st1.heap f = gv st.heap pos ∧
        (s < f → lt (gv st.heap pos) (gv st1.heap (parentIdx f)) = false) ∧
        (∀ i, i < st.heap.length → Anc s i → Anc i pos → i ≠ f →
            ∃ j, Anc s j ∧ Anc j pos ∧ j ≠ pos ∧ gv st1.heap i = gv st.heap j)) := by
  intro fuel
  induction fuel with
  | zero =>
    intro pos st st1 u h hlen hanc ha hb hfuel
    -- fuel 0 forces pos = 0, hence s = 0 = pos and the state is unchanged
    have hpos0 : pos = 0 := Nat.le_antisymm hfuel (Nat.zero_le _)
    subst hpos0
    have hs0 : s = 0 := Nat.le_antisymm (by simpa using hanc.le) (Nat.zero_le _)
    subst hs0
    simp only [siftdownGo, Prod.mk.injEq] at h
    obtain ⟨-, rfl⟩ := h
    refine ⟨rfl, rfl, List.Perm.refl _, ?_, ?_, ?_⟩
    · intro i hi hip his; exact ha i hi hip (by omega)
    · intro i _ _; rfl
    · exact ⟨0, Anc.refl 0, Anc.refl 0, hlen, rfl, by omega,
        fun i _ h1 h2 hne => absurd (Nat.le_antisymm h2.le (h1.le)) hne⟩
  | succ fuel ih =>
    intro pos st st1 u h hlen hanc ha hb hfuel
    by_cases hs : s < pos
    · simp only [siftdownGo, liftOk] at h
      rw [if_pos hs] at h
      cases hcmp : lt (gv st.heap pos) (gv st.heap (parentIdx pos)) with
      | false =>
        rw [hcmp] at h
        simp only [Prod.mk.injEq] at h
        obtain ⟨-, rfl⟩ := h
        refine ⟨rfl, rfl, List.Perm.refl _, ?_, fun i _ _ => rfl, ?_⟩
        · intro i hi hip his
          by_cases hipos : i = pos
          · subst hipos; exact hcmp
          · exact ha i hi hip hipos
        · refine ⟨pos, hanc, Anc.refl _, hlen, rfl, fun _ => hcmp, ?_⟩
          intro i hi h1 h2 hne
          exact ⟨i, h1, h2, hne, rfl⟩
      | true =>
        rw [hcmp] at h
        dsimp only at h
        cases hm1 : mapAtSet st.index (gv st.heap pos) (parentIdx pos) with
        | none => rw [hm1] at h; simp at h
        | some ix1 =>
          rw [hm1] at h
          dsimp only at h
          cases hm2 : mapAtSet ix1 (gv st.heap (parentIdx pos)) pos with
          | none => rw [hm2] at h; simp at h
          | some ix2 =>
            rw [hm2] at h
            dsimp only at h
            -- the recursive call
            set pp := parentIdx pos with hpp
            have hppos : 0 < pos := Nat.lt_of_le_of_lt (Nat.zero_le s) hs
            have hpplt : pp < pos := parentIdx_lt hppos
            set heap1 := (st.heap.set pp (gv st.heap pos)).set pos (gv st.heap pp)
              with hheap1
            have hlen1 : heap1.length = st.heap.length := by simp [hheap1]
            have hgv_pos : gv heap1 pos = gv st.heap pp := by
              apply gv_set_self; simp; omega
            have hgv_pp : gv heap1 pp = gv st.heap pos := by
              rw [gv_set_ne (by omega), gv_set_self (by omega)]
            have hgv_other : ∀ j, j ≠ pos → j ≠ pp → gv heap1 j = gv st.heap j := by
              intro j hj1 hj2
              rw [gv_set_ne (fun hh => hj1 hh.symm), gv_set_ne (fun hh => hj2 hh.symm)]
            have hedge_pp : s < pp → lt (gv st.heap pp) (gv st.heap (parentIdx pp)) = false := by
              intro hspp
              exact ha pp (by omega) (by omega) (by omega)
            have happ : Anc s pp := hanc.of_lt hs
            have hchild : pos = 2 * pp + 1 ∨ pos = 2 * pp + 2 := child_of_parent hppos
            -- preconditions of the recursive call
            have ha' : ∀ i, i < heap1.length → 0 < i → i ≠ pp →
                lt (gv heap1 i) (gv heap1 (parentIdx i)) = false := by
              intro i hi hip hipp
              rw [hlen1] at hi
              by_cases hipos : i = pos
              · subst hipos
                rw [hgv_pos, ← hpp, hgv_pp]
                exact hswo.asymm _ _ hcmp
              · have hgi : gv heap1 i = gv st.heap i := hgv_other i hipos hipp
                by_cases hpar_pos : parentIdx i = pos
                · rw [hgi, hpar_pos, hgv_pos]
                  have hc := child_of_parent hip
                  rw [hpar_pos] at hc
                  exact hb hs i hc hi
                · by_cases hpar_pp : parentIdx i = pp
                  · rw [hgi, hpar_pp, hgv_pp]
                    have h1 : lt (gv st.heap i) (gv st.heap pp) = false := by
                      have := ha i hi hip hipos
                      rwa [hpar_pp] at this
                    exact hswo.negtrans _ _ _ h1 (hswo.asymm _ _ hcmp)
                  · rw [hgi, hgv_other _ hpar_pos hpar_pp]
                    exact ha i hi hip hipos
            have hb' : s < pp → ∀ c, (c = 2 * pp + 1 ∨ c = 2 * pp + 2) → c < heap1.length →
                lt (gv heap1 c) (gv heap1 (parentIdx pp)) = false := by
              intro hspp c hc hcl
              rw [hlen1] at hcl
              have hppg : 0 < pp := by omega
              have hgpp_lt : parentIdx pp < pp := parentIdx_lt hppg
              have hgparent : gv heap1 (parentIdx pp) = gv st.heap (parentIdx pp) := by
                apply hgv_other <;> omega
              rw [hgparent]
              by_cases hcpos : c = pos
              · subst hcpos
                rw [hgv_pos]
                exact hedge_pp hspp
              · have hcpp : c ≠ pp := by omega
                rw [hgv_other c hcpos hcpp]
                have h1 : lt (gv st.heap c) (gv st.heap pp) = false := by
                  have h2 := ha c hcl (by omega) hcpos
                  have h3 : parentIdx c = pp := by
                    rcases hc with rfl | rfl
                    · exact parentIdx_child_left pp
                    · exact parentIdx_child_right pp
                  rwa [h3] at h2
                exact hswo.negtrans _ _ _ h1 (hedge_pp hspp)
            have hih := ih pp { st with heap := heap1, index := ix2 } st1 u h
              (by simpa [hlen1] using Nat.lt_trans hpplt hlen) happ
              (by simpa using ha') (by simpa using hb') (by omega)
            simp only [hlen1] at hih
            obtain ⟨hL, hSz, hPerm, hEdges, hFrame, f, hf1, hf2, hf3, hf4, hf5, hf6⟩ := hih
            have hanc_pp_pos : Anc pp pos := anc_parent hppos
            have hperm1 : heap1.Perm st.heap := by
              apply perm_set_swap st.heap pp pos (by omega) hlen
            refine ⟨hL, hSz, hPerm.trans hperm1, hEdges, ?_, ?_⟩
            · -- frame
              intro i hi hnc
              have hnc' : ¬(Anc s i ∧ Anc i pp) := by
                rintro ⟨h1, h2⟩
                exact hnc ⟨h1, h2.trans hanc_pp_pos⟩
              rw [hFrame i hi hnc']
              apply hgv_other
              · rintro rfl; exact hnc ⟨hanc, Anc.refl _⟩
              · rintro rfl; exact hnc ⟨happ, hanc_pp_pos⟩
            · -- tracking
              refine ⟨f, hf1, hf2.trans hanc_pp_pos, hf3, by rw [hf4, hgv_pp], ?_, ?_⟩
              · intro hsf
                have := hf5 hsf
                rwa [hgv_pp] at this
              · intro i hi h1 h2 hne
                by_cases h3 : Anc i pp
                · obtain ⟨j, hj1, hj2, hj3, hj4⟩ := hf6 i hi h1 h3 hne
                  refine ⟨j, hj1, hj2.trans hanc_pp_pos, by
                    have := hj2.le; omega, ?_⟩
                  rw [hj4]
                  apply hgv_other
                  · have := hj2.le; omega
                  · exact hj3
                · -- then i = pos
                  have hipos : i = pos := by
                    rcases h2.cases_chain with h4 | ⟨h4, h5⟩
                    · exact h4
                    · exact absurd h5 h3
                  have hfr : gv st1.heap pos = gv heap1 pos := by
                    apply hFrame pos (hipos ▸ hi)
                    rintro ⟨-, h5⟩
                    have := h5.le; omega
                  refine ⟨pp, happ, hanc_pp_pos, by omega, ?_⟩
                  rw [hipos, hfr, hgv_pos]
    · -- loop exit: pos ≤ s together with Anc s pos forces pos = s
      have hps : pos = s := Nat.le_antisymm (Nat.le_of_not_lt hs) hanc.le
      subst hps
      simp only [siftdownGo] at h
      rw [if_neg hs] at h
      simp only [Prod.mk.injEq] at h
      obtain ⟨-, rfl⟩ := h
      refine ⟨rfl, rfl, List.Perm.refl _, ?_, fun i _ _ => rfl, ?_⟩
      · intro i hi hip his; exact ha i hi hip his
      · refine ⟨pos, Anc.refl _, Anc.refl _, hlen, rfl, by omega, ?_⟩
        intro i _ h1 h2 hne
        exact absurd (Nat.le_antisymm h2.le h1.le) hne

end SiftDown

section SiftUp

variable {T : Type} [DecidableEq T] [Inhabited T]

/-- Specification of the descent loop of `siftup` under a failure-free
strict-weak-order comparator.  Starting at a position `pos` inside the
subtree of `idx` whose heap satisfies the order everywhere except at `idx`'s
own edge, at `pos` and into `pos`, with children of `pos` no smaller than
the value at `pos`'s parent once `pos` has moved below `idx`, and with an
arbitrary predicate `Good` holding at every subtree position other than
`pos`, a successful run ends at a childless position `f` carrying the value
that was at `pos`, keeps the heap order except at `idx` and `f`, keeps
`Good` at every subtree position other than `f`, and leaves positions
outside the subtree of `idx` untouched. -/
theorem siftupGo_ok (lt : T → T → Bool) (hswo : IsSWO lt) (endpos idx : Nat)
    (Good : T → Prop) :
    ∀ (fuel pos : Nat) (st : EHeapQ T) (f : Nat) (st1 : EHeapQ T),
      siftupGo (liftOk lt) endpos fuel pos st = (.ok f, st1) →
      endpos = st.heap.length →
      pos < st.heap.length →
      Anc idx pos →
      (∀ i, i < st.heap.length → 0 < i → i ≠ idx → i ≠ pos → parentIdx i ≠ pos →
          lt (gv st.heap i) (gv st.heap (parentIdx i)) = false) →
      (idx < pos → ∀ c, (c = 2 * pos + 1 ∨ c = 2 * pos + 2) → c < st.heap.length →
          lt (gv st.heap c) (gv st.heap (parentIdx pos)) = false) →
      (∀ q, q < st.heap.length → Anc idx q → q ≠ pos → Good (gv st.heap q)) →
      endpos / 2 ≤ fuel + pos →
      st1.heap.length = st.heap.length ∧
      st1.size = st.size ∧
      st1.heap.Perm st.heap ∧
      Anc idx f ∧
      f < st.heap.length ∧
      endpos / 2 ≤ f ∧
      gv st1.heap f = gv st.heap pos ∧
      (∀ i, i < st.heap.length → 0 < i → i ≠ idx → i ≠ f →
          lt (gv st1.heap i) (gv st1.heap (parentIdx i)) = false) ∧
      (∀ q, q < st.heap.length → Anc idx q → q ≠ f → Good (gv st1.heap q)) ∧
      (∀ q, q < st.heap.length → ¬Anc idx q → gv st1.heap q = gv st.heap q) := by
  intro fuel
  induction fuel with
  | zero =>
    intro pos st f st1 h hend hlen hanc hiii hvi hgood hfuel
    simp only [siftupGo, Prod.mk.injEq, Except.ok.injEq] at h
    obtain ⟨rfl, rfl⟩ := h
    refine ⟨rfl, rfl, List.Perm.refl _, hanc, hlen, by omega, rfl, ?_, hgood,
      fun q _ _ => rfl⟩
    intro i hi hip hiidx hipos
    refine hiii i hi hip hiidx hipos ?_
    -- children of pos are out of range since endpos / 2 ≤ pos
    intro hpar
    have hc := child_of_parent hip
    rw [hpar] at hc
    omega
  | succ fuel ih =>
    intro pos st f st1 h hend hlen hanc hiii hvi hgood hfuel
    by_cases hloop : pos < endpos / 2
    · -- a step of the loop; the common part, for either selected child
      have hstep : ∀ childsel ix2,
          (childsel = 2 * pos + 1 ∨ childsel = 2 * pos + 2) →
          childsel < st.heap.length →
          (∀ o, (o = 2 * pos + 1 ∨ o = 2 * pos + 2) → o < st.heap.length →
              o ≠ childsel → lt (gv st.heap o) (gv st.heap childsel) = false) →
          siftupGo (liftOk lt) endpos fuel childsel
            { st with
              heap := (st.heap.set childsel (gv st.heap pos)).set pos (gv st.heap childsel),
              index := ix2 } = (.ok f, st1) →
          st1.heap.length = st.heap.length ∧
          st1.size = st.size ∧
          st1.heap.Perm st.heap ∧
          Anc idx f ∧
          f < st.heap.length ∧
          endpos / 2 ≤ f ∧
          gv st1.heap f = gv st.heap pos ∧
          (∀ i, i < st.heap.length → 0 < i → i ≠ idx → i ≠ f →
              lt (gv st1.heap i) (gv st1.heap (parentIdx i)) = false) ∧
          (∀ q, q < st.heap.length → Anc idx q → q ≠ f → Good (gv st1.heap q)) ∧
          (∀ q, q < st.heap.length → ¬Anc idx q → gv st1.heap q = gv st.heap q) := by
        intro cs ix2 hcs hcsl hsib hrec
        have hcs_pos : pos < cs := by omega
        have hcs_par : parentIdx cs = pos := by
          rcases hcs with rfl | rfl
          · exact parentIdx_child_left pos
          · exact parentIdx_child_right pos
        have hidx_pos : idx ≤ pos := hanc.le
        set heap1 := (st.heap.set cs (gv st.heap pos)).set pos (gv st.heap cs)
          with hheap1
        have hlen1 : heap1.length = st.heap.length := by simp [hheap1]
        have hgv_pos : gv heap1 pos = gv st.heap cs := by
          apply gv_set_self; simp; omega
        have hgv_cs : gv heap1 cs = gv st.heap pos := by
          rw [gv_set_ne (by omega), gv_set_self (by omega)]
        have hgv_other : ∀ j, j ≠ pos → j ≠ cs → gv heap1 j = gv st.heap j := by
          intro j hj1 hj2
          rw [gv_set_ne (fun hh => hj1 hh.symm), gv_set_ne (fun hh => hj2 hh.symm)]
        have hanc_cs : Anc idx cs :=
          hanc.trans (hcs_par ▸ anc_parent (by omega))
        -- preconditions of the recursive call
        have hiii' : ∀ i, i < heap1.length → 0 < i → i ≠ idx → i ≠ cs → parentIdx i ≠ cs →
            lt (gv heap1 i) (gv heap1 (parentIdx i)) = false := by
          intro i hi hip hiidx hics hpari
          rw [hlen1] at hi
          by_cases hipos : i = pos
          · -- pos now carries the selected child value; its edge holds by
            -- the former edge of the selected child toward pos's parent
            have hidx_lt : idx < pos := by
              rcases Nat.lt_or_ge idx pos with hh | hh
              · exact hh
              · omega
            have hparpos : parentIdx i ≠ pos := by
              rw [hipos]
              have := parentIdx_lt (Anc.pos_of_lt hidx_lt)
              omega
            have hparcs2 : parentIdx pos ≠ cs := by
              have := parentIdx_le pos
              omega
            rw [hipos, hgv_pos, hgv_other (parentIdx pos) (by
              have := parentIdx_lt (Anc.pos_of_lt hidx_lt); omega) hparcs2]
            exact hvi hidx_lt cs hcs hcsl
          · by_cases hpar_pos : parentIdx i = pos
            · -- i is the sibling of the selected child
              have hc2 := child_of_parent hip
              rw [hpar_pos] at hc2
              have hics2 : i ≠ cs := hics
              rw [hgv_other i hipos hics2, hpar_pos, hgv_pos]
              exact hsib i hc2 hi hics2
            · -- untouched edge
              rw [hgv_other i hipos hics, hgv_other _ hpar_pos hpari]
              exact hiii i hi hip hiidx hipos hpar_pos
        have hvi' : idx < cs → ∀ c, (c = 2 * cs + 1 ∨ c = 2 * cs + 2) →
            c < heap1.length → lt (gv heap1 c) (gv heap1 (parentIdx cs)) = false := by
          intro _ c hc hcl
          rw [hlen1] at hcl
          have hcgt : cs < c := by omega
          have hparc : parentIdx c = cs := by
            rcases hc with rfl | rfl
            · exact parentIdx_child_left cs
            · exact parentIdx_child_right cs
          rw [hcs_par, hgv_pos, hgv_other c (by omega) (by omega)]
          have := hiii c hcl (by omega) (by omega) (by omega)
            (by rw [hparc]; omega)
          rwa [hparc] at this
        have hgood' : ∀ q, q < heap1.length → Anc idx q → q ≠ cs → Good (gv heap1 q) := by
          intro q hq hancq hqcs
          rw [hlen1] at hq
          by_cases hqpos : q = pos
          · rw [hqpos, hgv_pos]
            exact hgood cs hcsl hanc_cs (by omega)
          · rw [hgv_other q hqpos hqcs]
            exact hgood q hq hancq hqpos
        have hih := ih cs { st with heap := heap1, index := ix2 } f st1 hrec
          (by simpa [hlen1] using hend) (by simpa [hlen1] using hcsl) hanc_cs
          (by simpa [hlen1] using hiii') (by simpa [hlen1] using hvi')
          (by simpa [hlen1] using hgood') (by omega)
        simp only [hlen1] at hih
        obtain ⟨hL, hSz, hPerm, hAncf, hflt, hfge, hgvf, hEdges, hGood, hFrame⟩ := hih
        have hperm1 : heap1.Perm st.heap :=
          perm_set_swap st.heap cs pos hcsl hlen
        refine ⟨hL, hSz, hPerm.trans hperm1, hAncf, hflt, hfge, by rw [hgvf, hgv_cs],
          hEdges, ?_, ?_⟩
        · intro q hq hancq hqf
          exact hGood q hq hancq hqf
        · intro q hq hnanc
          rw [hFrame q hq hnanc]
          apply hgv_other
          · rintro rfl; exact hnanc hanc
          · rintro rfl; exact hnanc hanc_cs
      -- now the three selection branches
      simp only [siftupGo, liftOk] at h
      rw [if_pos hloop] at h
      have hchild1 : 2 * pos + 1 < st.heap.length := by omega
      by_cases h2c : 2 * pos + 1 + 1 < endpos
      · rw [if_pos h2c] at h
        dsimp only at h
        cases hc : lt (gv st.heap (2 * pos + 1)) (gv st.heap (2 * pos + 1 + 1)) with
        | true =>
          rw [hc] at h
          simp only [if_true] at h
          cases hm1 : mapAtSet st.index (gv st.heap pos) (2 * pos + 1) with
          | none => rw [hm1] at h; simp at h
          | some ix1 =>
            rw [hm1] at h; dsimp only at h
            cases hm2 : mapAtSet ix1 (gv st.heap (2 * pos + 1)) pos with
            | none => rw [hm2] at h; simp at h
            | some ix2 =>
              rw [hm2] at h; dsimp only at h
              refine hstep (2 * pos + 1) ix2 (Or.inl rfl) hchild1 ?_ h
              intro o ho hol hone
              have hor : o = 2 * pos + 2 := by omega
              subst hor
              have : (2 * pos + 1) + 1 = 2 * pos + 2 := by omega
              rw [← this]
              exact hswo.asymm _ _ hc
        | false =>
          rw [hc] at h
          simp only [Bool.false_eq_true, if_false] at h
          cases hm1 : mapAtSet st.index (gv st.heap pos) (2 * pos + 1 + 1) with
          | none => rw [hm1] at h; simp at h
          | some ix1 =>
            rw [hm1] at h; dsimp only at h
            cases hm2 : mapAtSet ix1 (gv st.heap (2 * pos + 1 + 1)) pos with
            | none => rw [hm2] at h; simp at h
            | some ix2 =>
              rw [hm2] at h; dsimp only at h
              refine hstep (2 * pos + 1 + 1) ix2 (Or.inr (by omega)) (by omega) ?_ h
              intro o ho hol hone
              have hor : o = 2 * pos + 1 := by omega
              subst hor
              exact hc
      · rw [if_neg h2c] at h
        dsimp only at h
        cases hm1 : mapAtSet st.index (gv st.heap pos) (2 * pos + 1) with
        | none => rw [hm1] at h; simp at h
        | some ix1 =>
          rw [hm1] at h; dsimp only at h
          cases hm2 : mapAtSet ix1 (gv st.heap (2 * pos + 1)) pos with
          | none => rw [hm2] at h; simp at h
          | some ix2 =>
            rw [hm2] at h; dsimp only at h
            refine hstep (2 * pos + 1) ix2 (Or.inl rfl) hchild1 ?_ h
            intro o ho hol hone
            have : o = 2 * pos + 2 := by omega
            omega
    · -- loop exit
      simp only [siftupGo] at h
      rw [if_neg hloop] at h
      simp only [Prod.mk.injEq, Except.ok.injEq] at h
      obtain ⟨rfl, rfl⟩ := h
      refine ⟨rfl, rfl, List.Perm.refl _, hanc, hlen, by omega, rfl, ?_, hgood,
        fun q _ _ => rfl⟩
      intro i hi hip hiidx hipos
      refine hiii i hi hip hiidx hipos ?_
      intro hpar
      have hc := child_of_parent hip
      rw [hpar] at hc
      omega

/-- Full specification of `EHeapQ::siftup(idx)` (descent plus the final
`siftdown(idx, pos)`) under a failure-free strict-weak-order comparator.
If the heap satisfies the order everywhere except at `idx` and at the edges
into `idx`, every strict subtree position of `idx` satisfies `Good`, and
`Good` values are no smaller than the value at `idx`'s parent, then a
successful run restores the order everywhere except possibly at the edge
from `idx` to its parent, preserves length, size and contents, does not
touch positions outside the subtree of `idx`, and moves the value that was
at `idx` to a subtree position `r`; all other subtree positions still
satisfy `Good`, and if `r` is below `idx` the moved value is no smaller
than its new parent. -/
theorem siftup_ok (lt : T → T → Bool) (hswo : IsSWO lt) (idx : Nat) (Good : T → Prop)
    (st st1 : EHeapQ T) (u : Unit)
    (h : siftup (liftOk lt) idx st = (.ok u, st1))
    (hlen : idx < st.heap.length)
    (hiii : ∀ i, i < st.heap.length → 0 < i → i ≠ idx → parentIdx i ≠ idx →
        lt (gv st.heap i) (gv st.heap (parentIdx i)) = false)
    (hgood : ∀ q, q < st.heap.length → Anc idx q → q ≠ idx → Good (gv st.heap q))
    (hge : 0 < idx → ∀ t, Good t → lt t (gv st.heap (parentIdx idx)) = false) :
    st1.heap.length = st.heap.length ∧
    st1.size = st.size ∧
    st1.heap.Perm st.heap ∧
    (∀ i, i < st.heap.length → 0 < i → i ≠ idx →
        lt (gv st1.heap i) (gv st1.heap (parentIdx i)) = false) ∧
    (∀ q, q < st.heap.length → ¬Anc idx q → gv st1.heap q = gv st.heap q) ∧
    (∃ r, Anc idx r ∧ r < st.heap.length ∧ gv st1.heap r = gv st.heap idx ∧
      (∀ q, q < st.heap.length → Anc idx q → q ≠ r → Good (gv st1.heap q)) ∧
      (idx < r → lt (gv st.heap idx) (gv st1.heap (parentIdx r)) = false)) := by
  simp only [siftup] at h
  cases hgo : siftupGo (liftOk lt) st.heap.length st.heap.length idx st with
  | mk res stD =>
    rw [hgo] at h
    cases res with
    | error e => simp at h
    | ok fp =>
      dsimp only at h
      have hd := siftupGo_ok lt hswo st.heap.length idx Good st.heap.length idx st fp stD
        hgo rfl hlen (Anc.refl _) (fun i hi hip hiidx hipos => hiii i hi hip hiidx)
        (by omega) hgood (by omega)
      obtain ⟨hL1, hSz1, hPerm1, hAncf, hflt, hfge, hgvf, hEdgesD, hGoodD, hFrameD⟩ := hd
      have hfr_par : 0 < idx → gv stD.heap (parentIdx idx) = gv st.heap (parentIdx idx) := by
        intro hip
        apply hFrameD _ (by have := parentIdx_lt hip; omega)
        intro hcon
        have := hcon.le
        have := parentIdx_lt hip
        omega
      -- the trailing siftdown(idx, fp)
      unfold siftdown at h
      rw [if_neg (by omega)] at h
      have hsd := siftdownGo_ok lt hswo idx fp fp stD st1 u h
        (by omega) hAncf ?_ ?_ (Nat.le_refl _)
      case refine_2 =>
        -- children of fp are out of range
        intro hlt c hc hcl
        rw [hL1] at hcl
        omega
      case refine_1 =>
        intro i hi hip hifp
        rw [hL1] at hi
        by_cases hiidx : i = idx
        · -- the edge out of idx holds because the value now at idx is Good
          subst hiidx
          have hgd : Good (gv stD.heap i) := hGoodD i hi (Anc.refl _) hifp
          rw [hfr_par hip]
          exact hge hip _ hgd
        · exact hEdgesD i hi hip hiidx hifp
      obtain ⟨hL2, hSz2, hPerm2, hEdges, hFrame, f2, hf1, hf2, hf3, hf4, hf5, hf6⟩ := hsd
      rw [hL1] at hL2 hEdges hFrame hf3
      refine ⟨hL2, hSz2.trans hSz1, hPerm2.trans hPerm1, hEdges, ?_, ?_⟩
      · intro q hq hnanc
        rw [hFrame q hq (by rintro ⟨h1, -⟩; exact hnanc h1)]
        exact hFrameD q hq hnanc
      · refine ⟨f2, hf1, hf3, by rw [hf4, hgvf], ?_, ?_⟩
        · intro q hq hancq hqf2
          by_cases hqfp : Anc q fp
          · obtain ⟨j, hj1, hj2, hj3, hj4⟩ := hf6 q (by omega) hancq hqfp hqf2
            rw [hj4]
            exact hGoodD j (by have := hj2.le; omega) hj1 hj3
          · rw [hFrame q hq (by rintro ⟨-, h2⟩; exact hqfp h2)]
            exact hGoodD q hq hancq (fun hh => hqfp (hh ▸ Anc.refl _))
        · intro hlt
          have := hf5 hlt
          rwa [hgvf] at this

end SiftUp

section OpLemmas

variable {T : Type} [DecidableEq T] [Inhabited T]

@[simp] theorem set_last_item_heap (x : T) (st : EHeapQ T) :
    (set_last_item x st).heap = st.heap := rfl

@[simp] theorem set_last_item_size (x : T) (st : EHeapQ T) :
    (set_last_item x st).size = st.size := rfl

@[simp] theorem set_max_item_heap (x : T) (st : EHeapQ T) :
    (set_max_item x st).heap = st.heap := rfl

@[simp] theorem set_max_item_size (x : T) (st : EHeapQ T) :
    (set_max_item x st).size = st.size := rfl

@[simp] theorem maybe_del_last_item_heap (x : T) (st : EHeapQ T) :
    (maybe_del_last_item x st).heap = st.heap := by
  unfold maybe_del_last_item; split <;> rfl

@[simp] theorem maybe_del_last_item_size (x : T) (st : EHeapQ T) :
    (maybe_del_last_item x st).size = st.size := by
  unfold maybe_del_last_item; split <;> rfl

@[simp] theorem maybe_del_last_item_index (x : T) (st : EHeapQ T) :
    (maybe_del_last_item x st).index = st.index := by
  unfold maybe_del_last_item; split <;> rfl

@[simp] theorem maybe_del_max_item_heap (x : T) (st : EHeapQ T) :
    (maybe_del_max_item x st).heap = st.heap := by
  unfold maybe_del_max_item; split <;> rfl

@[simp] theorem maybe_del_max_item_size (x : T) (st : EHeapQ T) :
    (maybe_del_max_item x st).size = st.size := by
  unfold maybe_del_max_item; split <;> rfl

@[simp] theorem maybe_del_max_item_index (x : T) (st : EHeapQ T) :
    (maybe_del_max_item x st).index = st.index := by
  unfold maybe_del_max_item; split <;> rfl

@[simp] theorem removeEnd_heap (x : T) (st : EHeapQ T) :
    (removeEnd x st).heap = st.heap := by
  unfold removeEnd; simp

@[simp] theorem removeEnd_size (x : T) (st : EHeapQ T) :
    (removeEnd x st).size = st.size := by
  unfold removeEnd; simp

@[simp] theorem removeEnd_index (x : T) (st : EHeapQ T) :
    (removeEnd x st).index = st.index := by
  unfold removeEnd; simp

/-- With a never-failing comparator, `maybe_adjust_max` always succeeds and
only possibly changes the `max_item` field. -/
theorem maybe_adjust_max_liftOk (lt : T → T → Bool) (x : T) (st : EHeapQ T) :
    ∃ st1, maybe_adjust_max (liftOk lt) x st = (.ok (), st1) ∧
      st1.heap = st.heap ∧ st1.size = st.size ∧ st1.index = st.index ∧
      st1.last_item = st.last_item ∧ st1.last_item_set = st.last_item_set := by
  unfold maybe_adjust_max liftOk
  by_cases hf : st.max_item_set = false
  · exact ⟨st, by rw [if_pos hf], rfl, rfl, rfl, rfl, rfl⟩
  · rw [if_neg hf]
    cases lt st.max_item x with
    | true => exact ⟨_, rfl, rfl, rfl, rfl, rfl, rfl⟩
    | false => exact ⟨st, rfl, rfl, rfl, rfl, rfl, rfl⟩

/-- Heap order restricted to a prefix: dropping the last element of a
heap-ordered list keeps it heap-ordered. -/
theorem heapOrd_dropLast {lt : T → T → Bool} {l : List T} (h : heapOrd lt l) :
    heapOrd lt l.dropLast := by
  intro i hi hip
  rw [List.length_dropLast] at hi
  have hpar : parentIdx i < l.length - 1 := by
    have := parentIdx_lt hip; omega
  rw [gv_dropLast hi, gv_dropLast hpar]
  exact h i (by omega) hip

/-- Irreflexivity of a strict weak order, derived from asymmetry. -/
theorem IsSWO.irrefl {lt : T → T → Bool} (h : IsSWO lt) (a : T) :
    lt a a = false := by
  cases hb : lt a a with
  | false => rfl
  | true => exact absurd (h.asymm a a hb) (by simp [hb])

/-- In a heap-ordered list, every position is no smaller than any of its
ancestors. -/
theorem heapOrd_anc_ge {lt : T → T → Bool} (hswo : IsSWO lt) {l : List T}
    (h : heapOrd lt l) {a q : Nat} (hanc : Anc a q) (hq : q < l.length) :
    lt (gv l q) (gv l a) = false := by
  induction hanc with
  | refl => exact hswo.irrefl _
  | step hpos h2 ih =>
    rename_i a' i
    have hedge : lt (gv l i) (gv l (parentIdx i)) = false := h i hq hpos
    have hpar : parentIdx i < l.length := by
      have := parentIdx_lt hpos; omega
    exact hswo.negtrans _ _ _ hedge (ih hpar)

/-- In a heap-ordered nonempty list the root is a comparator-minimum. -/
theorem heapOrd_root_min {lt : T → T → Bool} (hswo : IsSWO lt) {l : List T}
    (h : heapOrd lt l) {q : Nat} (hq : q < l.length) :
    lt (gv l q) (gv l 0) = false :=
  heapOrd_anc_ge hswo h (Anc.zero q) hq

/-- `siftup(0)` on a state whose heap is ordered everywhere except at the
root's edges restores full heap order; length, size and contents are
preserved. -/
theorem siftup0_heapOrd (lt : T → T → Bool) (hswo : IsSWO lt)
    (st st1 : EHeapQ T) (u : Unit)
    (h : siftup (liftOk lt) 0 st = (.ok u, st1))
    (hlen : 0 < st.heap.length)
    (hiii : ∀ i, i < st.heap.length → 0 < i → parentIdx i ≠ 0 →
        lt (gv st.heap i) (gv st.heap (parentIdx i)) = false) :
    st1.heap.length = st.heap.length ∧ st1.size = st.size ∧
    st1.heap.Perm st.heap ∧ heapOrd lt st1.heap := by
  have hs := siftup_ok lt hswo 0 (fun _ => True) st st1 u h hlen
    (fun i hi hip hi0 hp0 => hiii i hi hip hp0)
    (fun _ _ _ _ => trivial) (by omega)
  obtain ⟨hL, hSz, hPerm, hEdges, -⟩ := hs
  refine ⟨hL, hSz, hPerm, ?_⟩
  intro i hi hip
  rw [hL] at hi
  exact hEdges i hi hip (by omega)

/-- `siftup` on a state with an empty heap succeeds and does nothing. -/
theorem siftup_empty (cmp : T → T → Except Unit Bool) (pos : Nat) (st : EHeapQ T)
    (h : st.heap.length = 0) : siftup cmp pos st = (.ok (), st) := by
  have h2 : st.heap = [] := List.length_eq_zero.mp h
  simp [siftup, siftupGo, siftdown, h, h2]

/-- Dropping the last element after overwriting the last slot is just
dropping the last element. -/
theorem dropLast_set_last (l : List T) (v : T) :
    (l.set (l.length - 1) v).dropLast = l.dropLast := by
  apply List.ext_getElem (by simp)
  intro j hj hj2
  simp only [List.length_dropLast, List.length_set] at hj
  rw [List.getElem_dropLast, List.getElem_dropLast, List.getElem_set_ne (by omega) _]

/-- `pushpop` preserves the heap order under a failure-free strict weak
order. -/
theorem pushpop_heapOrd (lt : T → T → Bool) (hswo : IsSWO lt) {x r : T}
    {st st1 : EHeapQ T} (ho : heapOrd lt st.heap)
    (h : pushpop (liftOk lt) x st = (.ok r, st1)) :
    heapOrd lt st1.heap ∧ st1.heap.length = st.heap.length ∧ st1.size = st.size := by
  unfold pushpop at h
  cases hcon : mapContains st.index x with
  | true => rw [hcon] at h; simp at h
  | false =>
    rw [hcon] at h
    simp only [Bool.false_eq_true, if_false] at h
    by_cases hlen : 0 < st.heap.length
    · rw [if_pos hlen] at h
      simp only [liftOk] at h
      cases hc : lt (gv st.heap 0) x with
      | false =>
        rw [hc] at h
        simp only [Prod.mk.injEq, Except.ok.injEq] at h
        obtain ⟨-, rfl⟩ := h
        exact ⟨ho, rfl, rfl⟩
      | true =>
        rw [hc] at h
        dsimp only at h
        cases hsift : siftup (liftOk lt) 0
            { st with
              heap := st.heap.set 0 x,
              index := mapErase (mapInsert st.index x 0) (gv st.heap 0) } with
        | mk res st2 =>
          rw [hsift] at h
          cases res with
          | error e => simp at h
          | ok uu =>
            dsimp only at h
            obtain ⟨st5, hadj, hheap5, hsize5, -⟩ :=
              maybe_adjust_max_liftOk lt x
                (maybe_del_max_item x (set_last_item x st2))
            rw [hadj] at h
            simp only [Prod.mk.injEq, Except.ok.injEq] at h
            obtain ⟨-, rfl⟩ := h
            have hs := siftup0_heapOrd lt hswo _ st2 uu hsift (by simpa using hlen) ?_
            · obtain ⟨hL, hSz, -, hO⟩ := hs
              simp only [maybe_del_max_item_heap, set_last_item_heap] at hheap5
              simp only [maybe_del_max_item_size, set_last_item_size] at hsize5
              refine ⟨by rw [hheap5]; exact hO, ?_, ?_⟩
              · rw [hheap5, hL]; simp
              · rw [hsize5, hSz]
            · intro i hi hip hp0
              simp only [List.length_set] at hi
              have h1 : gv (st.heap.set 0 x) i = gv st.heap i := gv_set_ne (by omega) _
              have h2 : gv (st.heap.set 0 x) (parentIdx i) = gv st.heap (parentIdx i) :=
                gv_set_ne (fun hh => hp0 hh.symm) _
              simp only [h1, h2]
              exact ho i hi hip
    · rw [if_neg hlen] at h
      simp only [Prod.mk.injEq, Except.ok.injEq] at h
      obtain ⟨-, rfl⟩ := h
      exact ⟨ho, rfl, rfl⟩

/-- `pop` preserves the heap order and shortens the heap by one. -/
theorem pop_heapOrd (lt : T → T → Bool) (hswo : IsSWO lt) {r : T}
    {st st1 : EHeapQ T} (ho : heapOrd lt st.heap)
    (h : pop (liftOk lt) st = (.ok r, st1)) :
    heapOrd lt st1.heap ∧ st1.heap.length = st.heap.length - 1 ∧ st1.size = st.size := by
  unfold pop at h
  by_cases hlen0 : st.heap.length = 0
  · rw [if_pos hlen0] at h; simp at h
  · rw [if_neg hlen0] at h
    dsimp only at h
    by_cases hgt1 : 1 < st.heap.length
    · rw [if_pos hgt1] at h
      cases hm : mapAtSet st.index (gv st.heap (st.heap.length - 1)) 0 with
      | none => rw [hm] at h; simp at h
      | some ix1 =>
        rw [hm] at h
        dsimp only at h
        unfold popTail at h
        cases hsift : siftup (liftOk lt) 0
            { st with
              heap := (st.heap.set 0 (gv st.heap (st.heap.length - 1))).dropLast,
              index := mapErase ix1 (gv st.heap 0) } with
        | mk res st2 =>
          rw [hsift] at h
          cases res with
          | error e => simp at h
          | ok uu =>
            dsimp only at h
            simp only [Prod.mk.injEq, Except.ok.injEq] at h
            obtain ⟨-, rfl⟩ := h
            have hs := siftup0_heapOrd lt hswo _ st2 uu hsift (by simp; omega) ?_
            · obtain ⟨hL, hSz, -, hO⟩ := hs
              simp only [List.length_dropLast, List.length_set] at hL
              exact ⟨by simpa using hO, by simpa using hL, by simpa using hSz⟩
            · intro i hi hip hp0
              simp only [List.length_dropLast, List.length_set] at hi
              have hpar_lt : parentIdx i < i := parentIdx_lt hip
              have h1 : gv ((st.heap.set 0 (gv st.heap (st.heap.length - 1))).dropLast) i
                  = gv st.heap i := by
                rw [gv_dropLast (by simp; omega), gv_set_ne (by omega)]
              have h2 : gv ((st.heap.set 0 (gv st.heap (st.heap.length - 1))).dropLast)
                  (parentIdx i) = gv st.heap (parentIdx i) := by
                rw [gv_dropLast (by simp; omega), gv_set_ne (fun hh => hp0 hh.symm)]
              rw [h1, h2]
              exact ho i (by omega) hip
    · -- exactly one element: the heap becomes empty
      rw [if_neg hgt1] at h
      unfold popTail at h
      rw [siftup_empty (liftOk lt) 0 _ (by simp; omega)] at h
      simp only [Prod.mk.injEq, Except.ok.injEq] at h
      obtain ⟨-, rfl⟩ := h
      refine ⟨?_, by simp, by simp⟩
      intro i hi hip
      simp only [maybe_del_max_item_heap, maybe_del_last_item_heap] at hi
      simp only [List.length_dropLast] at hi
      omega

/-- `replace` preserves the heap order and the length. -/
theorem replace_heapOrd (lt : T → T → Bool) (hswo : IsSWO lt) {x r : T}
    {st st1 : EHeapQ T} (ho : heapOrd lt st.heap)
    (h : replace (liftOk lt) x st = (.ok r, st1)) :
    heapOrd lt st1.heap ∧ st1.heap.length = st.heap.length ∧ st1.size = st.size := by
  unfold replace at h
  by_cases hlen0 : st.heap.length = 0
  · rw [if_pos hlen0] at h; simp at h
  · rw [if_neg hlen0] at h
    cases hcon : mapContains st.index x with
    | true => rw [hcon] at h; simp at h
    | false =>
      rw [hcon] at h
      simp only [Bool.false_eq_true, if_false] at h
      cases hsift : siftup (liftOk lt) 0
          { st with
            index := mapInsert (mapErase st.index (gv st.heap 0)) x 0,
            heap := st.heap.set 0 x } with
      | mk res st2 =>
        rw [hsift] at h
        cases res with
        | error e => simp at h
        | ok uu =>
          dsimp only at h
          obtain ⟨st5, hadj, hheap5, hsize5, -⟩ :=
            maybe_adjust_max_liftOk lt (gv st.heap 0)
              (maybe_del_max_item (gv st.heap 0) (set_last_item (gv st.heap 0) st2))
          rw [hadj] at h
          simp only [Prod.mk.injEq, Except.ok.injEq] at h
          obtain ⟨-, rfl⟩ := h
          have hs := siftup0_heapOrd lt hswo _ st2 uu hsift (by simp; omega) ?_
          · obtain ⟨hL, hSz, -, hO⟩ := hs
            simp only [maybe_del_max_item_heap, set_last_item_heap] at hheap5
            simp only [maybe_del_max_item_size, set_last_item_size] at hsize5
            refine ⟨by rw [hheap5]; exact hO, ?_, ?_⟩
            · rw [hheap5, hL]; simp
            · rw [hsize5, hSz]
          · intro i hi hip hp0
            simp only [List.length_set] at hi
            rw [gv_set_ne (by omega), gv_set_ne (fun hh => hp0 hh.symm)]
            exact ho i hi hip

/-- `push` preserves the heap order. -/
theorem push_heapOrd (lt : T → T → Bool) (hswo : IsSWO lt) {x : T} {u : Unit}
    {st st1 : EHeapQ T} (ho : heapOrd lt st.heap)
    (h : push (liftOk lt) x st = (.ok u, st1)) : heapOrd lt st1.heap := by
  unfold push at h
  cases hcon : mapContains st.index x with
  | true => rw [hcon] at h; simp at h
  | false =>
    rw [hcon] at h
    simp only [Bool.false_eq_true, if_false] at h
    by_cases hcap : st.heap.length = st.size
    · rw [if_pos hcap] at h
      cases hpp : pushpop (liftOk lt) x st with
      | mk res stp =>
        rw [hpp] at h
        cases res with
        | error e => simp at h
        | ok rr =>
          dsimp only at h
          simp only [Prod.mk.injEq] at h
          obtain ⟨-, rfl⟩ := h
          exact (pushpop_heapOrd lt hswo ho hpp).1
    · rw [if_neg hcap] at h
      cases hsd : siftdown (liftOk lt) 0
          (({ st with
              index := mapInsert st.index x st.heap.length,
              heap := st.heap ++ [x] } : EHeapQ T).heap.length - 1)
          { st with
            index := mapInsert st.index x st.heap.length,
            heap := st.heap ++ [x] } with
      | mk res st2 =>
        rw [hsd] at h
        cases res with
        | error e => simp at h
        | ok uu =>
          dsimp only at h
          -- in all remaining branches the heap is st2.heap
          have hgoal : heapOrd lt st2.heap := by
            unfold siftdown at hsd
            rw [if_neg (by simp)] at hsd
            have hlen1 : ({ st with
                index := mapInsert st.index x st.heap.length,
                heap := st.heap ++ [x] } : EHeapQ T).heap.length
                = st.heap.length + 1 := by simp
            rw [hlen1] at hsd
            simp only [Nat.add_sub_cancel] at hsd
            have hs := siftdownGo_ok lt hswo 0 st.heap.length st.heap.length
              _ st2 uu hsd (by simp) (Anc.zero _) ?_ ?_ (Nat.le_refl _)
            · obtain ⟨hL, -, -, hEdges, -⟩ := hs
              intro i hi hip
              rw [hL] at hi
              simp only at hEdges hi
              exact hEdges i hi hip (by omega)
            · intro i hi hip hipos
              simp only [List.length_append, List.length_singleton] at hi
              have hilt : i < st.heap.length := by omega
              have hpar_lt : parentIdx i < st.heap.length := by
                have := parentIdx_lt hip; omega
              simp only
              rw [gv_append_lt hilt, gv_append_lt hpar_lt]
              exact ho i hilt hip
            · intro hpos c hc hcl
              simp only [List.length_append, List.length_singleton] at hcl
              omega
          by_cases hone : (set_last_item x st2).heap.length = 1
          · rw [if_pos hone] at h
            simp only [Prod.mk.injEq] at h
            obtain ⟨-, rfl⟩ := h
            simpa using hgoal
          · rw [if_neg hone] at h
            obtain ⟨st5, hadj, hheap5, -⟩ :=
              maybe_adjust_max_liftOk lt x (set_last_item x st2)
            rw [hadj] at h
            simp only [Prod.mk.injEq] at h
            obtain ⟨-, rfl⟩ := h
            rw [hheap5]
            simpa using hgoal

/-- `remove` preserves the heap order. -/
theorem remove_heapOrd (lt : T → T → Bool) (hswo : IsSWO lt) {x : T} {u : Unit}
    {st st1 : EHeapQ T} (ho : heapOrd lt st.heap)
    (h : remove (liftOk lt) x st = (.ok u, st1)) : heapOrd lt st1.heap := by
  unfold remove at h
  cases hfind : mapFind st.index x with
  | none => rw [hfind] at h; simp at h
  | some idx =>
    rw [hfind] at h
    dsimp only at h
    by_cases htail : 0 < st.heap.length ∧ gv st.heap (st.heap.length - 1) = x
    · rw [if_pos htail] at h
      simp only [Prod.mk.injEq] at h
      obtain ⟨-, rfl⟩ := h
      simpa using heapOrd_dropLast ho
    · rw [if_neg htail] at h
      by_cases hub : st.heap.length = 0 ∨ st.heap.length ≤ idx
      · rw [if_pos hub] at h; simp at h
      · rw [if_neg hub] at h
        have hidx_lt : idx < st.heap.length := by omega
        have hlen0 : 0 < st.heap.length := by omega
        set lastv := gv st.heap (st.heap.length - 1) with hlastv
        set heapA := (st.heap.set idx lastv).dropLast with hheapA
        have hlenA : heapA.length = st.heap.length - 1 := by simp [hheapA]
        have hgvA : ∀ j, j < st.heap.length - 1 → j ≠ idx → gv heapA j = gv st.heap j := by
          intro j hj hjidx
          rw [hheapA, gv_dropLast (by simp; omega), gv_set_ne (fun hh => hjidx hh.symm)]
        by_cases hin : idx < heapA.length
        · rw [if_pos (by simpa [hheapA] using hin)] at h
          rw [hlenA] at hin
          -- the siftup at idx followed by siftdown(0, idx)
          cases hsift : siftup (liftOk lt) idx
              { st with
                heap := heapA, index := mapErase st.index x } with
          | mk res st2 =>
            rw [show ({ st with
                heap := (st.heap.set idx (gv st.heap (st.heap.length - 1))).dropLast,
                index := mapErase st.index x } : EHeapQ T)
                = { st with heap := heapA, index := mapErase st.index x } from rfl] at h
            rw [hsift] at h
            cases res with
            | error e => simp at h
            | ok uu =>
              dsimp only at h
              cases hsd : siftdown (liftOk lt) 0 idx st2 with
              | mk res2 st3 =>
                rw [hsd] at h
                cases res2 with
                | error e => simp at h
                | ok uu2 =>
                  dsimp only at h
                  simp only [Prod.mk.injEq] at h
                  obtain ⟨-, rfl⟩ := h
                  have pre_len : idx < heapA.length := by omega
                  have pre_iii : ∀ i, i < heapA.length → 0 < i → i ≠ idx →
                      parentIdx i ≠ idx →
                      lt (gv heapA i) (gv heapA (parentIdx i)) = false := by
                    intro i hi hip hiidx hpidx
                    rw [hlenA] at hi
                    rw [hgvA i hi hiidx, hgvA (parentIdx i)
                      (by have := parentIdx_lt hip; omega) hpidx]
                    exact ho i (by omega) hip
                  have pre_good : ∀ q, q < heapA.length → Anc idx q → q ≠ idx →
                      (0 < idx → lt (gv heapA q) (gv heapA (parentIdx idx)) = false) := by
                    intro q hq hanc hqidx hpos
                    rw [hlenA] at hq
                    rw [hgvA q hq hqidx, hgvA (parentIdx idx)
                      (by have := parentIdx_lt hpos; omega)
                      (by have := parentIdx_lt hpos; omega)]
                    exact heapOrd_anc_ge hswo ho ((anc_parent hpos).trans hanc) (by omega)
                  have hsu := siftup_ok lt hswo idx
                    (fun t => 0 < idx → lt t (gv heapA (parentIdx idx)) = false)
                    { st with heap := heapA, index := mapErase st.index x } st2 uu hsift
                    pre_len pre_iii pre_good (fun hpos t hgd => hgd hpos)
                  obtain ⟨hL2, hSz2, hPerm2, hEdges2, hFrame2, rr, hr1, hr2, hr3,
                    hr4, hr5⟩ := hsu
                  have hL2b : st2.heap.length = heapA.length := hL2
                  have hEdges2b : ∀ i, i < heapA.length → 0 < i → i ≠ idx →
                      lt (gv st2.heap i) (gv st2.heap (parentIdx i)) = false := hEdges2
                  have hFrame2b : ∀ q, q < heapA.length → ¬Anc idx q →
                      gv st2.heap q = gv heapA q := hFrame2
                  have hr2b : rr < heapA.length := hr2
                  have hr3b : gv st2.heap rr = gv heapA idx := hr3
                  have hr4b : ∀ q, q < heapA.length → Anc idx q → q ≠ rr →
                      (0 < idx → lt (gv st2.heap q) (gv heapA (parentIdx idx)) = false) := hr4
                  have hr5b : idx < rr →
                      lt (gv heapA idx) (gv st2.heap (parentIdx rr)) = false := hr5
                  -- the final siftdown(0, idx)
                  unfold siftdown at hsd
                  rw [if_neg (by omega)] at hsd
                  have pre2a : ∀ i, i < st2.heap.length → 0 < i → i ≠ idx →
                      lt (gv st2.heap i) (gv st2.heap (parentIdx i)) = false := by
                    intro i hi hip hiidx
                    exact hEdges2b i (by omega) hip hiidx
                  have pre2b : 0 < idx → ∀ c, (c = 2 * idx + 1 ∨ c = 2 * idx + 2) →
                      c < st2.heap.length →
                      lt (gv st2.heap c) (gv st2.heap (parentIdx idx)) = false := by
                    intro hpos c hc hcl
                    rw [hL2b] at hcl
                    have hcpos : 0 < c := by omega
                    have hparc : parentIdx c = idx := by
                      rcases hc with rfl | rfl
                      · exact parentIdx_child_left idx
                      · exact parentIdx_child_right idx
                    have hancc : Anc idx c := hparc ▸ anc_parent hcpos
                    have hparfr : gv st2.heap (parentIdx idx) = gv heapA (parentIdx idx) := by
                      apply hFrame2b _ (by have := parentIdx_lt hpos; omega)
                      intro hcon
                      have := hcon.le
                      have := parentIdx_lt hpos
                      omega
                    rw [hparfr]
                    by_cases hcr : c = rr
                    · have hstop := hr5b (by omega)
                      rw [hcr, hr3b]
                      have hgidx := hr4b idx (by omega) (Anc.refl _) (by omega) hpos
                      have hparr : parentIdx rr = idx := by rw [← hcr, hparc]
                      rw [hparr] at hstop
                      exact hswo.negtrans _ _ _ hstop hgidx
                    · exact hr4b c (by omega) hancc hcr hpos
                  have hsdk := siftdownGo_ok lt hswo 0 idx idx st2 st3 uu2 hsd
                    (by omega) (Anc.zero _) pre2a pre2b (Nat.le_refl _)
                  obtain ⟨hL3, -, -, hEdges3, -⟩ := hsdk
                  intro i hi hip
                  simp only [removeEnd_heap] at hi ⊢
                  rw [hL3, hL2b, hlenA] at hi
                  exact hEdges3 i (by omega) hip (by omega)
        · rw [if_neg (by simpa [hheapA] using hin)] at h
          simp only [Prod.mk.injEq] at h
          obtain ⟨-, rfl⟩ := h
          -- no sift: here idx = length - 1, so the write hits the dropped slot
          have hidx_eq : idx = st.heap.length - 1 := by
            rw [hlenA] at hin; omega
          intro i hi hip
          simp only [removeEnd_heap] at hi ⊢
          have hA : heapA = st.heap.dropLast := by
            rw [hheapA, hidx_eq, hlastv, dropLast_set_last]
          rw [hA] at hi ⊢
          exact heapOrd_dropLast ho i hi hip

/-- The pop loop of `set_size` preserves the heap order. -/
theorem set_sizeGo_heapOrd (lt : T → T → Bool) (hswo : IsSWO lt) :
    ∀ (fuel : Nat) {st st1 : EHeapQ T} {u : Unit}, heapOrd lt st.heap →
      set_sizeGo (liftOk lt) fuel st = (.ok u, st1) → heapOrd lt st1.heap := by
  intro fuel
  induction fuel with
  | zero =>
    intro st st1 u ho h
    simp only [set_sizeGo, Prod.mk.injEq] at h
    obtain ⟨-, rfl⟩ := h
    exact ho
  | succ fuel ih =>
    intro st st1 u ho h
    simp only [set_sizeGo] at h
    by_cases hgt : st.size < st.heap.length
    · rw [if_pos hgt] at h
      cases hpop : pop (liftOk lt) st with
      | mk res stp =>
        rw [hpop] at h
        cases res with
        | error e => simp at h
        | ok rr =>
          dsimp only at h
          exact ih (pop_heapOrd lt hswo ho hpop).1 h
    · rw [if_neg hgt] at h
      simp only [Prod.mk.injEq] at h
      obtain ⟨-, rfl⟩ := h
      exact ho

/-- `set_size` preserves the heap order. -/
theorem set_size_heapOrd (lt : T → T → Bool) (hswo : IsSWO lt) {k : Nat} {u : Unit}
    {st st1 : EHeapQ T} (ho : heapOrd lt st.heap)
    (h : set_size (liftOk lt) k st = (.ok u, st1)) : heapOrd lt st1.heap := by
  unfold set_size at h
  exact set_sizeGo_heapOrd lt hswo st.heap.length
    (show heapOrd lt ({ st with size := k } : EHeapQ T).heap from ho) h

/-- The scan loop of `get_max` succeeds under a never-failing comparator and
returns a value that is an element (or the initial candidate), is no
smaller than the initial candidate, and is no smaller than every scanned
element. -/
theorem maxScanGo_ok (lt : T → T → Bool) (hswo : IsSWO lt) (l : List T) :
    ∀ (fuel i : Nat) (res : T),
      l.length ≤ fuel + i →
      ∃ m, maxScanGo (liftOk lt) l fuel i res = .ok m ∧
        (m = res ∨ ∃ j, i ≤ j ∧ j < l.length ∧ gv l j = m) ∧
        lt m res = false ∧
        (∀ j, i ≤ j → j < l.length → lt m (gv l j) = false) := by
  intro fuel
  induction fuel with
  | zero =>
    intro i res hfuel
    refine ⟨res, by simp [maxScanGo], Or.inl rfl, hswo.irrefl _, ?_⟩
    intro j hj1 hj2
    omega
  | succ fuel ih =>
    intro i res hfuel
    by_cases hi : i < l.length
    · cases hc : lt res (gv l i) with
      | true =>
        obtain ⟨m, hm, hprov, hge, hdom⟩ := ih (i + 1) (gv l i) (by omega)
        refine ⟨m, ?_, ?_, ?_, ?_⟩
        · simp only [maxScanGo, liftOk]
          rw [if_pos hi, hc]
          exact hm
        · rcases hprov with rfl | ⟨j, hj1, hj2, hj3⟩
          · exact Or.inr ⟨i, Nat.le_refl _, hi, rfl⟩
          · exact Or.inr ⟨j, by omega, hj2, hj3⟩
        · exact hswo.negtrans _ _ _ hge (hswo.asymm _ _ hc)
        · intro j hj1 hj2
          by_cases hji : j = i
          · rw [hji]; exact hge
          · exact hdom j (by omega) hj2
      | false =>
        obtain ⟨m, hm, hprov, hge, hdom⟩ := ih (i + 1) res (by omega)
        refine ⟨m, ?_, ?_, hge, ?_⟩
        · simp only [maxScanGo, liftOk]
          rw [if_pos hi, hc]
          exact hm
        · rcases hprov with rfl | ⟨j, hj1, hj2, hj3⟩
          · exact Or.inl rfl
          · exact Or.inr ⟨j, by omega, hj2, hj3⟩
        · intro j hj1 hj2
          by_cases hji : j = i
          · rw [hji]; exact hswo.negtrans _ _ _ hge hc
          · exact hdom j (by omega) hj2
    · refine ⟨res, ?_, Or.inl rfl, hswo.irrefl _, ?_⟩
      · simp only [maxScanGo]
        rw [if_neg hi]
      · intro j hj1 hj2
        omega

/-- In a heap-ordered list, every element is dominated by some element in
the leaf range `length / 2 … length - 1`. -/
theorem exists_leaf_ge {lt : T → T → Bool} (hswo : IsSWO lt) {l : List T}
    (ho : heapOrd lt l) :
    ∀ k, k < l.length →
      ∃ j, l.length / 2 ≤ j ∧ j < l.length ∧ lt (gv l j) (gv l k) = false := by
  have key : ∀ d k, k < l.length → l.length - k ≤ d →
      ∃ j, l.length / 2 ≤ j ∧ j < l.length ∧ lt (gv l j) (gv l k) = false := by
    intro d
    induction d with
    | zero => intro k hk hd; omega
    | succ d ih =>
      intro k hk hd
      by_cases hleaf : l.length / 2 ≤ k
      · exact ⟨k, hleaf, hk, hswo.irrefl _⟩
      · have hc : 2 * k + 1 < l.length := by omega
        have hedge : lt (gv l (2 * k + 1)) (gv l k) = false := by
          have := ho (2 * k + 1) hc (by omega)
          rwa [parentIdx_child_left] at this
        obtain ⟨j, hj1, hj2, hj3⟩ := ih (2 * k + 1) hc (by omega)
        exact ⟨j, hj1, hj2, hswo.negtrans _ _ _ hj3 hedge⟩
  intro k hk
  exact key l.length k hk (by omega)

/-- The natural order is a strict weak order. -/
theorem natLt_swo : IsSWO natLt := by
  constructor
  · intro a b h
    simp only [natLt, decide_eq_true_eq] at h
    simp only [natLt, decide_eq_false_iff_not]
    omega
  · intro a b c h1 h2
    simp only [natLt, decide_eq_false_iff_not] at h1 h2 ⊢
    omega

end OpLemmas

section WFLemmas

variable {T : Type} [DecidableEq T] [Inhabited T]

theorem mapContains_iff {ix : List (T × Nat)} {k : T} :
    mapContains ix k = true ↔ ∃ p ∈ ix, p.1 = k := by
  unfold mapContains mapFind
  constructor
  · intro h
    cases hf : ix.find? (fun p => decide (p.1 = k)) with
    | none => rw [hf] at h; simp at h
    | some p =>
      have hm := List.mem_of_find?_eq_some hf
      have hk := List.find?_some hf
      exact ⟨p, hm, by simpa using hk⟩
  · rintro ⟨p, hp, hpk⟩
    cases hf : ix.find? (fun p => decide (p.1 = k)) with
    | some p2 => simp [hf]
    | none =>
      have := List.find?_eq_none.mp hf p hp
      simp [hpk] at this

theorem mapContains_of_mem {ix : List (T × Nat)} {k : T} {v : Nat}
    (h : (k, v) ∈ ix) : mapContains ix k = true :=
  mapContains_iff.mpr ⟨(k, v), h, rfl⟩

/-- With unique keys, an entry's position is determined by its key. -/
theorem entry_unique {ix : List (T × Nat)} (hnd : (ix.map Prod.fst).Nodup)
    {k : T} {v1 v2 : Nat} (h1 : (k, v1) ∈ ix) (h2 : (k, v2) ∈ ix) : v1 = v2 := by
  induction ix with
  | nil => simp at h1
  | cons p rest ih =>
    simp only [List.map_cons, List.nodup_cons] at hnd
    rcases List.mem_cons.mp h1 with rfl | h1r
    · rcases List.mem_cons.mp h2 with hp | h2r
      · exact (Prod.mk.injEq _ _ _ _ ▸ hp.symm).2.symm ▸ rfl
      · exact absurd (List.mem_map_of_mem Prod.fst h2r) (by simpa using hnd.1)
    · rcases List.mem_cons.mp h2 with rfl | h2r
      · exact absurd (List.mem_map_of_mem Prod.fst h1r) (by simpa using hnd.1)
      · exact ih hnd.2 h1r h2r

/-- In a well-formed state, distinct positions hold distinct elements. -/
theorem WFidx.value_inj {ix : List (T × Nat)} {l : List T} (hwf : WFidx ix l)
    {i j : Nat} (hi : i < l.length) (hj : j < l.length) (hne : i ≠ j) :
    gv l i ≠ gv l j := by
  intro heq
  have h1 := hwf.2.1 i hi
  have h2 := hwf.2.1 j hj
  rw [heq] at h1
  exact hne (entry_unique hwf.2.2 h1 h2)

theorem WFidx.contains_at {ix : List (T × Nat)} {l : List T} (hwf : WFidx ix l)
    {i : Nat} (hi : i < l.length) : mapContains ix (gv l i) = true :=
  mapContains_of_mem (hwf.2.1 i hi)

@[simp] theorem mapAtSet_keys (ix : List (T × Nat)) (k : T) (v : Nat)
    {ix1 : List (T × Nat)} (h : mapAtSet ix k v = some ix1) :
    ix1.map Prod.fst = ix.map Prod.fst := by
  unfold mapAtSet at h
  split at h
  · cases h
    rw [List.map_map]
    apply List.map_congr_left
    intro p _
    by_cases hp : p.1 = k
    · simp [hp]
    · simp [hp]
  · cases h

theorem mapAtSet_mem {ix : List (T × Nat)} {k : T} {v : Nat} {ix1 : List (T × Nat)}
    (h : mapAtSet ix k v = some ix1) {p : T × Nat} (hp : p ∈ ix) :
    (if p.1 = k then (k, v) else p) ∈ ix1 := by
  unfold mapAtSet at h
  split at h
  · cases h
    exact List.mem_map_of_mem _ hp
  · cases h

theorem mapAtSet_mem_rev {ix : List (T × Nat)} {k : T} {v : Nat} {ix1 : List (T × Nat)}
    (h : mapAtSet ix k v = some ix1) {q : T × Nat} (hq : q ∈ ix1) :
    ∃ p ∈ ix, q = if p.1 = k then (k, v) else p := by
  unfold mapAtSet at h
  split at h
  · cases h
    obtain ⟨p, hp, hpq⟩ := List.mem_map.mp hq
    exact ⟨p, hp, hpq.symm⟩
  · cases h

theorem mapAtSet_some {ix : List (T × Nat)} {k : T} (hc : mapContains ix k = true)
    (v : Nat) : ∃ ix1, mapAtSet ix k v = some ix1 := by
  unfold mapAtSet
  rw [if_pos hc]
  exact ⟨_, rfl⟩

/-- The swap performed by one iteration of either sift loop, together with
its two `at` updates, preserves index well-formedness.  Here `p` receives
the value formerly at `q` and vice versa, matching the source's order of
updates (`at(value now at p) = p` then `at(value now at q) = q`). -/
theorem WFidx_swap {ix : List (T × Nat)} {l : List T} (hwf : WFidx ix l)
    {p q : Nat} (hp : p < l.length) (hq : q < l.length) (hne : p ≠ q) :
    ∃ ix1 ix2, mapAtSet ix (gv l q) p = some ix1 ∧ mapAtSet ix1 (gv l p) q = some ix2 ∧
      WFidx ix2 ((l.set p (gv l q)).set q (gv l p)) := by
  have hvne : gv l p ≠ gv l q := hwf.value_inj hp hq hne
  obtain ⟨ix1, h1⟩ := mapAtSet_some (hwf.contains_at hq) p
  have hc1 : mapContains ix1 (gv l p) = true := by
    obtain ⟨px, hpx, hpk⟩ := mapContains_iff.mp (hwf.contains_at hp)
    have := mapAtSet_mem h1 hpx
    rw [if_neg (by rw [hpk]; exact hvne)] at this
    exact mapContains_iff.mpr ⟨px, this, hpk⟩
  obtain ⟨ix2, h2⟩ := mapAtSet_some hc1 q
  refine ⟨ix1, ix2, h1, h2, ?_, ?_, ?_⟩
  · -- every entry records the true position
    intro e he
    obtain ⟨e1, he1, hee1⟩ := mapAtSet_mem_rev h2 he
    obtain ⟨e0, he0, he01⟩ := mapAtSet_mem_rev h1 he1
    rw [he01] at hee1
    have hl2p : gv ((l.set p (gv l q)).set q (gv l p)) p = gv l q := by
      rw [gv_set_ne hne.symm, gv_set_self hp]
    have hl2q : gv ((l.set p (gv l q)).set q (gv l p)) q = gv l p := by
      rw [gv_set_self (by simpa using hq)]
    by_cases h1q : e0.1 = gv l q
    · -- the entry for the value moved to p
      rw [if_pos h1q, if_neg (by simpa using hvne.symm)] at hee1
      subst hee1
      exact ⟨by simp only [List.length_set]; omega, hl2p⟩
    · rw [if_neg h1q] at hee1
      by_cases h1p : e0.1 = gv l p
      · rw [if_pos h1p] at hee1
        subst hee1
        exact ⟨by simp only [List.length_set]; omega, hl2q⟩
      · rw [if_neg h1p] at hee1
        rw [hee1]
        obtain ⟨hw, hv⟩ := hwf.1 e0 he0
        have hwp : e0.2 ≠ p := by
          intro hh
          exact h1p (by rw [← hv, hh])
        have hwq : e0.2 ≠ q := by
          intro hh
          exact h1q (by rw [← hv, hh])
        refine ⟨by simp only [List.length_set]; omega, ?_⟩
        rw [gv_set_ne (fun hh => hwq hh.symm), gv_set_ne (fun hh => hwp hh.symm)]
        exact hv
  · -- every position is recorded
    intro i hi
    simp only [List.length_set] at hi
    by_cases hip : i = p
    · subst hip
      have hm := mapAtSet_mem h1 (hwf.2.1 q hq)
      rw [if_pos rfl] at hm
      have hm2 := mapAtSet_mem h2 hm
      rw [if_neg (by simpa using hvne.symm)] at hm2
      have : gv ((l.set i (gv l q)).set q (gv l i)) i = gv l q := by
        rw [gv_set_ne hne.symm, gv_set_self hp]
      rw [this]
      exact hm2
    · by_cases hiq : i = q
      · subst hiq
        have hm := mapAtSet_mem h1 (hwf.2.1 p hp)
        rw [if_neg hvne] at hm
        have hm2 := mapAtSet_mem h2 hm
        rw [if_pos rfl] at hm2
        have : gv ((l.set p (gv l i)).set i (gv l p)) i = gv l p := by
          rw [gv_set_self (by simpa using hq)]
        rw [this]
        exact hm2
      · have hm := mapAtSet_mem h1 (hwf.2.1 i hi)
        have hvi_q : gv l i ≠ gv l q := hwf.value_inj hi hq hiq
        have hvi_p : gv l i ≠ gv l p := hwf.value_inj hi hp hip
        rw [if_neg hvi_q] at hm
        have hm2 := mapAtSet_mem h2 hm
        rw [if_neg hvi_p] at hm2
        have : gv ((l.set p (gv l q)).set q (gv l p)) i = gv l i := by
          rw [gv_set_ne (fun hh => hiq hh.symm), gv_set_ne (fun hh => hip hh.symm)]
        rw [this]
        exact hm2
  · -- keys stay unique
    rw [mapAtSet_keys ix1 (gv l p) q h2, mapAtSet_keys ix (gv l q) p h1]
    exact hwf.2.2

/-- Under a never-failing comparator and a well-formed index, the
`siftdown` loop always succeeds, preserves well-formedness and the
length. -/
theorem siftdownGo_wf (lt : T → T → Bool) (s : Nat) :
    ∀ (fuel pos : Nat) (st : EHeapQ T) (res : Except (Err Unit) Unit) (st1 : EHeapQ T),
      siftdownGo (liftOk lt) s fuel pos st = (res, st1) →
      pos < st.heap.length → pos ≤ fuel → WFidx st.index st.heap →
      (∃ u, res = .ok u) ∧ WFidx st1.index st1.heap ∧
      st1.heap.length = st.heap.length := by
  intro fuel
  induction fuel with
  | zero =>
    intro pos st res st1 h hlen hfuel hwf
    simp only [siftdownGo, Prod.mk.injEq] at h
    obtain ⟨rfl, rfl⟩ := h
    exact ⟨⟨(), rfl⟩, hwf, rfl⟩
  | succ fuel ih =>
    intro pos st res st1 h hlen hfuel hwf
    by_cases hs : s < pos
    · simp only [siftdownGo, liftOk] at h
      rw [if_pos hs] at h
      cases hc : lt (gv st.heap pos) (gv st.heap (parentIdx pos)) with
      | false =>
        rw [hc] at h
        simp only [Prod.mk.injEq] at h
        obtain ⟨rfl, rfl⟩ := h
        exact ⟨⟨(), rfl⟩, hwf, rfl⟩
      | true =>
        rw [hc] at h
        dsimp only at h
        have hpp : parentIdx pos < pos := parentIdx_lt (by omega)
        obtain ⟨ix1, ix2, h1, h2, hwf2⟩ := WFidx_swap hwf
          (show parentIdx pos < st.heap.length by omega) hlen (by omega)
        rw [h1] at h
        dsimp only at h
        rw [h2] at h
        dsimp only at h
        have hres := ih (parentIdx pos) _ res st1 h (by simp; omega) (by omega) hwf2
        obtain ⟨hok, hwf1, hL⟩ := hres
        refine ⟨hok, hwf1, ?_⟩
        rw [hL]; simp
    · simp only [siftdownGo] at h
      rw [if_neg hs] at h
      simp only [Prod.mk.injEq] at h
      obtain ⟨rfl, rfl⟩ := h
      exact ⟨⟨(), rfl⟩, hwf, rfl⟩

/-- Under a never-failing comparator and a well-formed index, the `siftup`
descent loop always succeeds, ends inside the vector, preserves
well-formedness and the length. -/
theorem siftupGo_wf (lt : T → T → Bool) (endpos : Nat) :
    ∀ (fuel pos : Nat) (st : EHeapQ T) (res : Except (Err Unit) Nat) (st1 : EHeapQ T),
      siftupGo (liftOk lt) endpos fuel pos st = (res, st1) →
      endpos = st.heap.length → pos < st.heap.length → WFidx st.index st.heap →
      (∃ f, res = .ok f ∧ f < st.heap.length) ∧ WFidx st1.index st1.heap ∧
      st1.heap.length = st.heap.length := by
  intro fuel
  induction fuel with
  | zero =>
    intro pos st res st1 h hend hlen hwf
    simp only [siftupGo, Prod.mk.injEq] at h
    obtain ⟨rfl, rfl⟩ := h
    exact ⟨⟨pos, rfl, hlen⟩, hwf, rfl⟩
  | succ fuel ih =>
    intro pos st res st1 h hend hlen hwf
    by_cases hloop : pos < endpos / 2
    · have hstep : ∀ cs ix1 ix2,
          (cs = 2 * pos + 1 ∨ cs = 2 * pos + 2) → cs < st.heap.length →
          mapAtSet st.index (gv st.heap pos) cs = some ix1 →
          mapAtSet ix1 (gv st.heap cs) pos = some ix2 →
          WFidx ix2 ((st.heap.set cs (gv st.heap pos)).set pos (gv st.heap cs)) →
          siftupGo (liftOk lt) endpos fuel cs
            { st with
              heap := (st.heap.set cs (gv st.heap pos)).set pos (gv st.heap cs),
              index := ix2 } = (res, st1) →
          (∃ f, res = .ok f ∧ f < st.heap.length) ∧ WFidx st1.index st1.heap ∧
          st1.heap.length = st.heap.length := by
        intro cs ix1 ix2 hcs hcsl hm1 hm2 hwf2 hrec
        have hres := ih cs _ res st1 hrec (by simp [hend]) (by simp; omega) hwf2
        obtain ⟨⟨f, hf1, hf2⟩, hwf1, hL⟩ := hres
        simp only [List.length_set] at hf2 hL
        exact ⟨⟨f, hf1, by simpa using hf2⟩, hwf1, by simpa using hL⟩
      simp only [siftupGo, liftOk] at h
      rw [if_pos hloop] at h
      by_cases h2c : 2 * pos + 1 + 1 < endpos
      · rw [if_pos h2c] at h
        dsimp only at h
        cases hc : lt (gv st.heap (2 * pos + 1)) (gv st.heap (2 * pos + 1 + 1)) with
        | true =>
          rw [hc] at h
          simp only [if_true] at h
          obtain ⟨ix1, ix2, h1, h2, hwf2⟩ := WFidx_swap hwf
            (show 2 * pos + 1 < st.heap.length by omega) hlen (by omega)
          rw [h1] at h
          dsimp only at h
          rw [h2] at h
          dsimp only at h
          exact hstep (2 * pos + 1) ix1 ix2 (Or.inl rfl) (by omega) h1 h2 hwf2 h
        | false =>
          rw [hc] at h
          simp only [Bool.false_eq_true, if_false] at h
          obtain ⟨ix1, ix2, h1, h2, hwf2⟩ := WFidx_swap hwf
            (show 2 * pos + 1 + 1 < st.heap.length by omega) hlen (by omega)
          rw [h1] at h
          dsimp only at h
          rw [h2] at h
          dsimp only at h
          exact hstep (2 * pos + 1 + 1) ix1 ix2 (Or.inr (by omega)) (by omega) h1 h2 hwf2 h
      · rw [if_neg h2c] at h
        dsimp only at h
        obtain ⟨ix1, ix2, h1, h2, hwf2⟩ := WFidx_swap hwf
          (show 2 * pos + 1 < st.heap.length by omega) hlen (by omega)
        rw [h1] at h
        dsimp only at h
        rw [h2] at h
        dsimp only at h
        exact hstep (2 * pos + 1) ix1 ix2 (Or.inl rfl) (by omega) h1 h2 hwf2 h
    · simp only [siftupGo] at h
      rw [if_neg hloop] at h
      simp only [Prod.mk.injEq] at h
      obtain ⟨rfl, rfl⟩ := h
      exact ⟨⟨pos, rfl, hlen⟩, hwf, rfl⟩

/-- Under a never-failing comparator and a well-formed index, `siftup`
always succeeds, preserves well-formedness and the length. -/
theorem siftup_wf (lt : T → T → Bool) (pos : Nat) (st : EHeapQ T)
    (res : Except (Err Unit) Unit) (st1 : EHeapQ T)
    (h : siftup (liftOk lt) pos st = (res, st1))
    (hpos : pos < st.heap.length) (hwf : WFidx st.index st.heap) :
    (∃ u, res = .ok u) ∧ WFidx st1.index st1.heap ∧
    st1.heap.length = st.heap.length := by
  simp only [siftup] at h
  cases hgo : siftupGo (liftOk lt) st.heap.length st.heap.length pos st with
  | mk res0 stD =>
    rw [hgo] at h
    have hup := siftupGo_wf lt st.heap.length st.heap.length pos st res0 stD hgo
      rfl hpos hwf
    obtain ⟨⟨f, rfl, hflt⟩, hwfD, hLD⟩ := hup
    dsimp only at h
    unfold siftdown at h
    rw [if_neg (by omega)] at h
    have hdn := siftdownGo_wf lt pos f f stD res st1 h (by omega) (Nat.le_refl _) hwfD
    obtain ⟨hok, hwf1, hL1⟩ := hdn
    exact ⟨hok, hwf1, by omega⟩

/-- Membership in the index after `erase`. -/
theorem mapErase_mem {ix : List (T × Nat)} {k : T} {p : T × Nat} :
    p ∈ mapErase ix k ↔ p ∈ ix ∧ p.1 ≠ k := by
  unfold mapErase
  rw [List.mem_filter]
  simp

/-- `erase` keeps the keys duplicate-free. -/
theorem mapErase_nodup {ix : List (T × Nat)} (k : T)
    (h : (ix.map Prod.fst).Nodup) : ((mapErase ix k).map Prod.fst).Nodup := by
  unfold mapErase
  exact List.Nodup.sublist (List.Sublist.map Prod.fst (List.filter_sublist _)) h

/-- A non-empty list is its `dropLast` followed by its last element. -/
theorem eq_dropLast_append {l : List T} (h : 0 < l.length) :
    l = l.dropLast ++ [gv l (l.length - 1)] := by
  induction l with
  | nil => simp at h
  | cons a t ih =>
    cases t with
    | nil => rfl
    | cons b t2 =>
      have ht := ih (by simp)
      conv_lhs => rw [ht]
      simp only [List.dropLast_cons₂, List.cons_append, List.cons.injEq, true_and]
      have hg : gv (a :: b :: t2) ((a :: b :: t2).length - 1) = gv (b :: t2) ((b :: t2).length - 1) := by
        simp only [List.length_cons, Nat.add_sub_cancel, gv, List.getD_cons_succ]
      rw [hg]

/-- Overwriting the last slot commutes away under `dropLast`, stated with a
flexible index. -/
theorem dropLast_set_of_eq {l : List T} {i : Nat} (h : i = l.length - 1) (v : T) :
    (l.set i v).dropLast = l.dropLast := by
  subst h
  exact dropLast_set_last l v

/-- The index-map bookkeeping of `pop` on a one-element heap preserves
well-formedness: erasing the root's entry leaves a well-formed index for the
emptied vector. -/
theorem WFidx_pop_prep1 {ix : List (T × Nat)} {l : List T} (hwf : WFidx ix l)
    (hn : l.length = 1) :
    WFidx (mapErase ix (gv l 0)) l.dropLast := by
  refine ⟨?_, ?_, mapErase_nodup _ hwf.2.2⟩
  · intro p hp
    rw [mapErase_mem] at hp
    obtain ⟨hp1, hp2⟩ := hp
    obtain ⟨hlt, hvp⟩ := hwf.1 p hp1
    exfalso
    apply hp2
    have h0 : p.2 = 0 := by omega
    rw [← hvp, h0]
  · intro i hi
    rw [List.length_dropLast, hn] at hi
    omega

/-- The index-map bookkeeping of `pop` on a heap of at least two elements
succeeds and preserves well-formedness: the back element's entry is redirected
to position 0, the old root's entry is erased, and the result indexes the
vector with the back moved to the root and the last slot dropped. -/
theorem WFidx_pop_prep {ix : List (T × Nat)} {l : List T} (hwf : WFidx ix l)
    (hn : 2 ≤ l.length) :
    ∃ ix1, mapAtSet ix (gv l (l.length - 1)) 0 = some ix1 ∧
      WFidx (mapErase ix1 (gv l 0)) ((l.set 0 (gv l (l.length - 1))).dropLast) := by
  have hlast : l.length - 1 < l.length := by omega
  have h0 : 0 < l.length := by omega
  have hvne : gv l 0 ≠ gv l (l.length - 1) := hwf.value_inj h0 hlast (by omega)
  obtain ⟨ix1, h1⟩ := mapAtSet_some (hwf.contains_at hlast) 0
  refine ⟨ix1, h1, ?_, ?_, ?_⟩
  · intro p hp
    rw [mapErase_mem] at hp
    obtain ⟨hp1, hp2⟩ := hp
    obtain ⟨e, he, hpe⟩ := mapAtSet_mem_rev h1 hp1
    by_cases heb : e.1 = gv l (l.length - 1)
    · rw [if_pos heb] at hpe
      subst hpe
      refine ⟨?_, ?_⟩
      · simp only [List.length_dropLast, List.length_set]
        omega
      · rw [gv_dropLast (by simp only [List.length_set]; omega), gv_set_self h0]
    · rw [if_neg heb] at hpe
      subst hpe
      obtain ⟨helt, hev⟩ := hwf.1 p he
      have hene0 : p.2 ≠ 0 := by
        intro h00
        apply hp2
        rw [← hev, h00]
      have henel : p.2 ≠ l.length - 1 := by
        intro hll
        apply heb
        rw [← hev, hll]
      refine ⟨?_, ?_⟩
      · simp only [List.length_dropLast, List.length_set]
        omega
      · rw [gv_dropLast (by simp only [List.length_set]; omega), gv_set_ne (by omega)]
        exact hev
  · intro i hi
    simp only [List.length_dropLast, List.length_set] at hi
    rw [mapErase_mem]
    by_cases hi0 : i = 0
    · subst hi0
      have hg0 : gv ((l.set 0 (gv l (l.length - 1))).dropLast) 0 = gv l (l.length - 1) := by
        rw [gv_dropLast (by simp only [List.length_set]; omega), gv_set_self h0]
      rw [hg0]
      refine ⟨?_, fun hh => hvne hh.symm⟩
      have hmem := hwf.2.1 (l.length - 1) hlast
      have hup := mapAtSet_mem h1 hmem
      rw [if_pos rfl] at hup
      exact hup
    · have hgi : gv ((l.set 0 (gv l (l.length - 1))).dropLast) i = gv l i := by
        rw [gv_dropLast (by simp only [List.length_set]; omega),
          gv_set_ne (fun hh => hi0 hh.symm)]
      rw [hgi]
      have hkne : gv l i ≠ gv l (l.length - 1) := hwf.value_inj (by omega) hlast (by omega)
      have hkne0 : gv l i ≠ gv l 0 := hwf.value_inj (by omega) h0 hi0
      refine ⟨?_, hkne0⟩
      have hmem := hwf.2.1 i (by omega)
      have hup := mapAtSet_mem h1 hmem
      rw [if_neg hkne] at hup
      exact hup
  · exact mapErase_nodup _ (by rw [mapAtSet_keys _ _ _ h1]; exact hwf.2.2)

/-- Full specification of a successful `pop` under a failure-free strict weak
order on a well-formed ordered state: it returns the root, keeps the index
well-formed and the heap ordered, shortens the vector by one, keeps the
capacity, and removes exactly one copy of the root from the contents. -/
theorem pop_spec (lt : T → T → Bool) (hswo : IsSWO lt) {st : EHeapQ T}
    (ho : heapOrd lt st.heap) (hwf : WFidx st.index st.heap)
    (hlen : 0 < st.heap.length) :
    ∃ st1, pop (liftOk lt) st = (.ok (gv st.heap 0), st1) ∧
      WFidx st1.index st1.heap ∧ heapOrd lt st1.heap ∧
      st1.heap.length = st.heap.length - 1 ∧ st1.size = st.size ∧
      (gv st.heap 0 :: st1.heap).Perm st.heap := by
  cases hp : pop (liftOk lt) st with
  | mk res st1 =>
    unfold pop at hp
    rw [if_neg (by omega)] at hp
    dsimp only at hp
    by_cases hgt1 : 1 < st.heap.length
    · rw [if_pos hgt1] at hp
      obtain ⟨ix1, h1, hwfP⟩ := WFidx_pop_prep hwf (by omega)
      rw [h1] at hp
      dsimp only at hp
      unfold popTail at hp
      cases hsift : siftup (liftOk lt) 0
          { st with
            heap := (st.heap.set 0 (gv st.heap (st.heap.length - 1))).dropLast,
            index := mapErase ix1 (gv st.heap 0) } with
      | mk res0 stS =>
        have hswf := siftup_wf lt 0 _ res0 stS hsift (by simp; omega) hwfP
        obtain ⟨⟨u, rfl⟩, hwfS, hLS⟩ := hswf
        rw [hsift] at hp
        dsimp only at hp
        simp only [Prod.mk.injEq] at hp
        obtain ⟨rfl, rfl⟩ := hp
        have hs0 := siftup0_heapOrd lt hswo _ stS u hsift (by simp; omega) ?_
        · obtain ⟨hL0, hSz0, hPerm0, hOrd0⟩ := hs0
          simp only [List.length_dropLast, List.length_set] at hL0
          dsimp only at hPerm0
          refine ⟨_, rfl, ?_, ?_, ?_, ?_, ?_⟩
          · simpa using hwfS
          · simpa using hOrd0
          · simpa using hL0
          · simpa using hSz0
          · have hPermRoot : (gv st.heap 0 ::
                (st.heap.set 0 (gv st.heap (st.heap.length - 1))).dropLast).Perm st.heap := by
              have hm := perm_set_swap st.heap 0 (st.heap.length - 1) (by omega) (by omega)
              have hdl := dropLast_set_of_eq
                (show st.heap.length - 1 =
                  (st.heap.set 0 (gv st.heap (st.heap.length - 1))).length - 1 by simp)
                (gv st.heap 0)
              have h0m : 0 < ((st.heap.set 0 (gv st.heap (st.heap.length - 1))).set
                  (st.heap.length - 1) (gv st.heap 0)).length := by
                simp only [List.length_set]
                omega
              have heq := eq_dropLast_append h0m
              rw [hdl] at heq
              rw [show ((st.heap.set 0 (gv st.heap (st.heap.length - 1))).set
                  (st.heap.length - 1) (gv st.heap 0)).length - 1 = st.heap.length - 1
                from by simp] at heq
              rw [gv_set_self (show st.heap.length - 1 <
                  (st.heap.set 0 (gv st.heap (st.heap.length - 1))).length
                from by simp only [List.length_set]; omega) (gv st.heap 0)] at heq
              have hfin := heq ▸ hm
              exact (List.perm_append_singleton _ _).symm.trans hfin
            simp only [maybe_del_max_item_heap, maybe_del_last_item_heap]
            exact (List.Perm.cons (gv st.heap 0) hPerm0).trans hPermRoot
        · intro i hi hip hp0i
          simp only [List.length_dropLast, List.length_set] at hi
          have hpar_lt : parentIdx i < i := parentIdx_lt hip
          have hg1 : gv ((st.heap.set 0 (gv st.heap (st.heap.length - 1))).dropLast) i
              = gv st.heap i := by
            rw [gv_dropLast (by simp; omega), gv_set_ne (by omega)]
          have hg2 : gv ((st.heap.set 0 (gv st.heap (st.heap.length - 1))).dropLast)
              (parentIdx i) = gv st.heap (parentIdx i) := by
            rw [gv_dropLast (by simp; omega), gv_set_ne (fun hh => hp0i hh.symm)]
          rw [hg1, hg2]
          exact ho i (by omega) hip
    · rw [if_neg hgt1] at hp
      unfold popTail at hp
      rw [siftup_empty (liftOk lt) 0 _ (by simp; omega)] at hp
      simp only [Prod.mk.injEq] at hp
      obtain ⟨rfl, rfl⟩ := hp
      refine ⟨_, rfl, ?_, ?_, ?_, ?_, ?_⟩
      · simp only [maybe_del_max_item_index, maybe_del_last_item_index,
          maybe_del_max_item_heap, maybe_del_last_item_heap]
        exact WFidx_pop_prep1 hwf (by omega)
      · intro i hi hip
        simp only [maybe_del_max_item_heap, maybe_del_last_item_heap,
          List.length_dropLast] at hi
        omega
      · simp
      · simp
      · obtain ⟨a, ha⟩ := List.length_eq_one.mp (show st.heap.length = 1 by omega)
        simp only [maybe_del_max_item_heap, maybe_del_last_item_heap]
        rw [ha]
        simp [gv]

/-- The pop loop of `set_size`: with enough fuel it succeeds, retains a
well-formed ordered state whose length is the smaller of the capacity and the
original length, and every retained element is, to the comparator, no smaller
than every removed one. -/
theorem set_sizeGo_spec (lt : T → T → Bool) (hswo : IsSWO lt) :
    ∀ (fuel : Nat) (st : EHeapQ T),
      st.heap.length ≤ fuel + st.size →
      heapOrd lt st.heap → WFidx st.index st.heap →
      ∃ (st1 : EHeapQ T) (removed : List T),
        set_sizeGo (liftOk lt) fuel st = (.ok (), st1) ∧
        WFidx st1.index st1.heap ∧ heapOrd lt st1.heap ∧
        st1.size = st.size ∧
        st1.heap.length = min st.size st.heap.length ∧
        st.heap.Perm (st1.heap ++ removed) ∧
        (∀ x ∈ st1.heap, ∀ y ∈ removed, lt x y = false) := by
  intro fuel
  induction fuel with
  | zero =>
    intro st hfuel ho hwf
    exact ⟨st, [], rfl, hwf, ho, rfl, by omega, by simp, by simp⟩
  | succ fuel ih =>
    intro st hfuel ho hwf
    by_cases hgt : st.size < st.heap.length
    · obtain ⟨stP, hpop, hwfP, hoP, hLP, hSzP, hPermP⟩ := pop_spec lt hswo ho hwf (by omega)
      obtain ⟨st1, removed, hgo, hwf1, ho1, hsz1, hlen1, hperm1, hdom1⟩ :=
        ih stP (by omega) hoP hwfP
      refine ⟨st1, gv st.heap 0 :: removed, ?_, hwf1, ho1, ?_, ?_, ?_, ?_⟩
      · simp only [set_sizeGo]
        rw [if_pos hgt, hpop]
        dsimp only
        exact hgo
      · rw [hsz1, hSzP]
      · rw [hlen1, hSzP, hLP]
        omega
      · refine hPermP.symm.trans ?_
        refine (List.Perm.cons (gv st.heap 0) hperm1).trans ?_
        exact List.perm_middle.symm
      · intro x hx y hy
        rcases List.mem_cons.mp hy with rfl | hy2
        · have hxP : x ∈ stP.heap := hperm1.mem_iff.mpr (List.mem_append_left removed hx)
          have hxS : x ∈ st.heap := hPermP.mem_iff.mp (List.mem_cons_of_mem _ hxP)
          obtain ⟨i, hi, rfl⟩ := mem_iff_gv.mp hxS
          exact heapOrd_root_min hswo ho hi
        · exact hdom1 x hx y hy2
    · refine ⟨st, [], ?_, hwf, ho, rfl, by omega, by simp, by simp⟩
      simp only [set_sizeGo]
      rw [if_neg hgt]

end WFLemmas

section Claims

variable {T : Type} [DecidableEq T] [Inhabited T]

/-- C1: the index-consistency invariant fails on the code.  After the
successful operations `push 1; push 2; push 3; remove 2` (integer order),
element 3 is stored at backing-sequence position 1, but the index still
maps it to its old position 2: `remove` moves the tail element into the
vacated slot without updating its index entry, and when the sift passes
move nothing the stale entry survives.  This theorem evaluates the code on
that failing input. -/
theorem c1_remove_stale_index :
    stPushes123.heap = [1, 2, 3] ∧
    mapFind stPushes123.index 2 = some 1 ∧
    (remove (liftOk natLt) 2 stPushes123).1 = .ok () ∧
    stAfterRemove2.heap = [1, 3] ∧
    gv stAfterRemove2.heap 1 = 3 ∧
    mapFind stAfterRemove2.index 3 = some 2 ∧
    stAfterRemove2.index.length = 2 := by
  exact ⟨rfl, rfl, rfl, rfl, rfl, rfl, rfl⟩

/-- C2: the heap-order invariant.  Every state reachable from a fresh heap
by successful `push`, `pushpop`, `pop`, `replace`, `remove` and `set_size`
calls under a never-failing strict-weak-order comparator satisfies
`heapOrd`: no child precedes its parent. -/
theorem c2_heap_order_invariant (lt : T → T → Bool) (hswo : IsSWO lt)
    (st : EHeapQ T) (h : Reach (liftOk lt) st) : heapOrd lt st.heap := by
  induction h with
  | start s =>
    intro i hi hip
    simp [EHeapQ.init] at hi
  | step_push hr he ih => exact push_heapOrd _ hswo ih he
  | step_pushpop hr he ih => exact (pushpop_heapOrd _ hswo ih he).1
  | step_pop hr he ih => exact (pop_heapOrd _ hswo ih he).1
  | step_replace hr he ih => exact (replace_heapOrd _ hswo ih he).1
  | step_remove hr he ih => exact remove_heapOrd _ hswo ih he
  | step_set_size hr he ih => exact set_size_heapOrd _ hswo ih he

/-- Witness for C2 at a concrete input: the state reached by
`push 1; push 2; push 3; remove 2` is heap-ordered. -/
theorem c2_heap_order_invariant_witness : heapOrd natLt stAfterRemove2.heap := by
  have h1 : push (liftOk natLt) 1 (EHeapQ.init 100)
      = (.ok (), (push (liftOk natLt) 1 (EHeapQ.init 100)).2) := rfl
  have r1 := Reach.step_push (Reach.start 100) h1
  have h2 : push (liftOk natLt) 2 (push (liftOk natLt) 1 (EHeapQ.init 100)).2
      = (.ok (), (push (liftOk natLt) 2 (push (liftOk natLt) 1 (EHeapQ.init 100)).2).2) :=
    rfl
  have r2 := Reach.step_push r1 h2
  have h3 : push (liftOk natLt) 3
        (push (liftOk natLt) 2 (push (liftOk natLt) 1 (EHeapQ.init 100)).2).2
      = (.ok (), (push (liftOk natLt) 3
        (push (liftOk natLt) 2 (push (liftOk natLt) 1 (EHeapQ.init 100)).2).2).2) :=
    rfl
  have r3 := Reach.step_push r2 h3
  have hR : Reach (liftOk natLt) stPushes123 := r3
  have h4 : remove (liftOk natLt) 2 stPushes123 = (.ok (), stAfterRemove2) := rfl
  exact c2_heap_order_invariant natLt natLt_swo _ (Reach.step_remove hR h4)

/-- C3: strong exception safety on comparator failure fails on the code,
already for `push`.  Under a comparator that fails on the pair (1, 2),
pushing 1 onto the heap `[2, 5, 7]` appends 1, swaps it one level up
(heap `[2, 1, 7, 5]`), and then the comparison of 1 against 2 fails.  The
`catch` block erases 1's index entry and pops the vector's back — but the
back now holds 5, not 1.  The failure is propagated with the heap left as
`[2, 1, 7]`: element 5 is lost from the heap yet still indexed at 3,
element 1 is kept but unindexed, and the array even violates the heap
order.  The pre-call state `[2, 5, 7]` is not restored. -/
theorem c3_push_rollback_broken :
    stPushes257.heap = [2, 5, 7] ∧
    (push cmpThrow12 1 stPushes257).1 = .error (.comp ()) ∧
    (push cmpThrow12 1 stPushes257).2.heap = [2, 1, 7] ∧
    mapFind (push cmpThrow12 1 stPushes257).2.index 5 = some 3 ∧
    mapFind (push cmpThrow12 1 stPushes257).2.index 1 = none ∧
    (push cmpThrow12 1 stPushes257).2.heap ≠ stPushes257.heap ∧
    ¬heapOrd natLt (push cmpThrow12 1 stPushes257).2.heap := by
  refine ⟨rfl, rfl, rfl, rfl, rfl, by decide, by decide⟩

/-- C4: the pushpop rejection law.  On a non-empty heap, for an item whose
key is not indexed and which the root does not compare less than,
`pushpop` returns the item itself and the entire state — backing sequence,
index, capacity and caches — is exactly unchanged. -/
theorem c4_pushpop_rejection (lt : T → T → Bool) (x : T) (st : EHeapQ T)
    (hne : 0 < st.heap.length)
    (hnk : mapContains st.index x = false)
    (hrej : lt (gv st.heap 0) x = false) :
    pushpop (liftOk lt) x st = (.ok x, st) := by
  unfold pushpop
  rw [hnk]
  simp only [Bool.false_eq_true, if_false]
  rw [if_pos hne]
  simp only [liftOk, hrej]

/-- Witness for C4 at a concrete input: rejecting 0 against the heap
`[1, 2, 3]`. -/
theorem c4_pushpop_rejection_witness :
    pushpop (liftOk natLt) 0 stPushes123 = (.ok 0, stPushes123) :=
  c4_pushpop_rejection natLt 0 stPushes123 (by decide) (by decide) (by decide)

/-- C5: max-scan correctness fails on the code.  After
`push 3; push 8; push 5` the max cache holds 8; `replace 10` evicts 3 and
installs 10 (heap `[5, 8, 10]`), but line 326 passes `result` (the evicted
3) instead of the new item to `maybe_adjust_max`, so the cache keeps 8.
`get_max` then returns the cached 8 while a full linear scan over all
elements returns 10, and 8 is not a comparator-maximum. -/
theorem c5_get_max_stale_after_replace :
    (replace (liftOk natLt) 10 stPushes385).1 = .ok 3 ∧
    stAfterReplace10.heap = [5, 8, 10] ∧
    stAfterReplace10.max_item_set = true ∧
    stAfterReplace10.max_item = 8 ∧
    (get_max (liftOk natLt) stAfterReplace10).1 = .ok 8 ∧
    maxScanGo (liftOk natLt) stAfterReplace10.heap stAfterReplace10.heap.length 1
      (gv stAfterReplace10.heap 0) = .ok 10 ∧
    natLt 8 10 = true := by
  exact ⟨rfl, rfl, rfl, rfl, rfl, rfl, rfl⟩

/-- C6 counterexample: the ceiling boundary of the claim is wrong.  The
list `[1, 9, 2]` is a valid heap of odd length 3; its unique
comparator-maximum 9 sits at index 1, which is not in the claimed range
`⌈3/2⌉ … 2 = {2}`; the only element of that range, 2, is strictly below 9,
so a scan restricted to exactly that range cannot return the maximum.
`get_max` itself (flag unset) scans from `⌊3/2⌋ = 1` and returns 9. -/
theorem c6_ceil_range_counterexample :
    heapOrd natLt [1, 9, 2] ∧
    (∀ y ∈ [1, 9, 2], natLt 9 y = false) ∧
    gv [1, 9, 2] 1 = 9 ∧
    (∀ i, i < 3 → (3 + 1) / 2 ≤ i → gv [1, 9, 2] i ≠ 9) ∧
    natLt (gv [1, 9, 2] 2) 9 = true ∧
    (get_max (liftOk natLt)
      ⟨[1, 9, 2], [(1, 0), (9, 1), (2, 2)], 100, 0, false, 0, false⟩).1 = .ok 9 := by
  exact ⟨by decide, by decide, rfl, by decide, rfl, rfl⟩

/-- C6 amended: with the floor boundary `⌊length/2⌋ … length−1` the claim
holds.  For every non-empty heap-ordered state with no cached maximum,
`get_max` performs exactly that scan and returns an element stored in the
range that no stored element strictly exceeds. -/
theorem c6_floor_leaf_scan (lt : T → T → Bool) (hswo : IsSWO lt) (st : EHeapQ T)
    (hne : 0 < st.heap.length) (ho : heapOrd lt st.heap)
    (hflag : st.max_item_set = false) :
    ∃ m st1, get_max (liftOk lt) st = (.ok m, st1) ∧
      (∃ i, st.heap.length / 2 ≤ i ∧ i < st.heap.length ∧ gv st.heap i = m) ∧
      (∀ y ∈ st.heap, lt m y = false) := by
  unfold get_max
  rw [if_neg (by omega), if_neg (by simp [hflag])]
  obtain ⟨m, hm, hprov, hge, hdom⟩ := maxScanGo_ok lt hswo st.heap st.heap.length
    (st.heap.length / 2 + 1) (gv st.heap (st.heap.length / 2)) (by omega)
  rw [hm]
  refine ⟨m, _, rfl, ?_, ?_⟩
  · rcases hprov with rfl | ⟨j, hj1, hj2, hj3⟩
    · exact ⟨st.heap.length / 2, Nat.le_refl _, by omega, rfl⟩
    · exact ⟨j, by omega, hj2, hj3⟩
  · intro y hy
    obtain ⟨k, hk, rfl⟩ := mem_iff_gv.mp hy
    obtain ⟨j, hj1, hj2, hj3⟩ := exists_leaf_ge hswo ho k hk
    have hmj : lt m (gv st.heap j) = false := by
      by_cases hj : j = st.heap.length / 2
      · rw [hj]; exact hge
      · exact hdom j (by omega) hj2
    exact hswo.negtrans _ _ _ hmj hj3

/-- Witness for the amended C6 at a concrete input: the odd-length heap
`[1, 9, 2]` with no cached maximum. -/
theorem c6_floor_leaf_scan_witness :
    ∃ m st1, get_max (liftOk natLt)
        (⟨[1, 9, 2], [(1, 0), (9, 1), (2, 2)], 100, 0, false, 0, false⟩ : EHeapQ Nat)
        = (.ok m, st1) ∧
      (∃ i, 3 / 2 ≤ i ∧ i < 3 ∧ gv [1, 9, 2] i = m) ∧
      (∀ y ∈ [1, 9, 2], natLt m y = false) :=
  c6_floor_leaf_scan natLt natLt_swo
    ⟨[1, 9, 2], [(1, 0), (9, 1), (2, 2)], 100, 0, false, 0, false⟩
    (by decide) (by decide) rfl

/-- C7: shrink retains the largest.  For every state holding `n`
distinct-keyed elements (captured by a well-formed index) that satisfies the
heap-order invariant, under a failure-free strict-weak-order comparator, and
for every `k < n`, `set_size(k)` returns successfully with the capacity and
the vector length both equal to `k`, and the original contents split into the
`k` retained elements and `n - k` removed ones such that no retained element
compares strictly below any removed element — i.e. exactly the `k`
comparator-largest of the original elements are kept. -/
theorem c7_shrink_retains_largest {T : Type} [DecidableEq T] [Inhabited T]
    (lt : T → T → Bool) (hswo : IsSWO lt) (k : Nat) (st : EHeapQ T)
    (ho : heapOrd lt st.heap) (hwf : WFidx st.index st.heap)
    (hk : k < st.heap.length) :
    ∃ (st1 : EHeapQ T) (removed : List T),
      set_size (liftOk lt) k st = (.ok (), st1) ∧
      st1.size = k ∧
      st1.heap.length = k ∧
      removed.length = st.heap.length - k ∧
      st.heap.Perm (st1.heap ++ removed) ∧
      (∀ x ∈ st1.heap, ∀ y ∈ removed, lt x y = false) := by
  obtain ⟨st1, removed, hgo, hwf1, ho1, hsz1, hlen1, hperm1, hdom1⟩ :=
    set_sizeGo_spec lt hswo st.heap.length
      { st with size := k }
      (by dsimp only; omega)
      (show heapOrd lt ({ st with size := k } : EHeapQ T).heap from ho)
      (show WFidx ({ st with size := k } : EHeapQ T).index
        ({ st with size := k } : EHeapQ T).heap from hwf)
  have hlen1b : st1.heap.length = min k st.heap.length := hlen1
  have hperm1b : st.heap.Perm (st1.heap ++ removed) := hperm1
  refine ⟨st1, removed, ?_, ?_, ?_, ?_, hperm1b, hdom1⟩
  · show set_sizeGo (liftOk lt) st.heap.length { st with size := k } = (.ok (), st1)
    exact hgo
  · exact hsz1
  · omega
  · have h2 := hperm1b.length_eq
    simp only [List.length_append] at h2
    omega

/-- Witness for C7 at a concrete input: the heap `[1, 2, 3]` built by three
pushes, shrunk to capacity 1. -/
theorem c7_shrink_retains_largest_witness :
    ∃ (st1 : EHeapQ Nat) (removed : List Nat),
      set_size (liftOk natLt) 1 stPushes123 = (.ok (), st1) ∧
      st1.size = 1 ∧
      st1.heap.length = 1 ∧
      removed.length = stPushes123.heap.length - 1 ∧
      stPushes123.heap.Perm (st1.heap ++ removed) ∧
      (∀ x ∈ st1.heap, ∀ y ∈ removed, natLt x y = false) :=
  c7_shrink_retains_largest natLt natLt_swo 1 stPushes123 (by decide)
    (by unfold WFidx; decide) (by decide)

/-- C8: the last-inserted cache after `replace` fails on the code.  After
`push 3; push 8; push 5`, calling `replace 10` succeeds, evicts 3 and
installs 10, but line 324 passes `result` (the evicted root 3) to
`set_last_item` instead of the swapped-in item: the last cache ends up
holding 3, an element that has left the structure, not 10, and a
subsequent `get_last` returns 3. -/
theorem c8_replace_last_cache_wrong :
    (replace (liftOk natLt) 10 stPushes385).1 = .ok 3 ∧
    stAfterReplace10.last_item_set = true ∧
    stAfterReplace10.last_item = 3 ∧
    (get_last stAfterReplace10 : Except (Err Unit) Nat × EHeapQ Nat).1 = .ok 3 ∧
    3 ∉ stAfterReplace10.heap ∧
    (3 : Nat) ≠ 10 := by
  exact ⟨rfl, rfl, rfl, rfl, by decide, by decide⟩

/-- C9: the claim that `get_max` sets the max cache fails on the code.
After `push 1; push 2; remove 2` the cache flag is false (removing 2
invalidated it).  `get_max` then recomputes and returns 1 and assigns the
`max_item` field (line 157), but never sets `max_item_set` on this path:
after the call returns, the cache flag is still false, so the claimed
"cache is set and holds m" is false (every later `get_max` rescans). -/
theorem c9_get_max_flag_not_set :
    stMaxUnset.heap = [1] ∧
    stMaxUnset.max_item_set = false ∧
    (get_max (liftOk natLt) stMaxUnset).1 = .ok 1 ∧
    (get_max (liftOk natLt) stMaxUnset).2.max_item = 1 ∧
    (get_max (liftOk natLt) stMaxUnset).2.max_item_set = false := by
  exact ⟨rfl, rfl, rfl, rfl, rfl⟩

/-- C10: `get_top` on a non-empty heap-ordered state returns the element at
the root position, which no stored element compares strictly below, and
returns the state itself entirely unmodified. -/
theorem c10_get_top_min (lt : T → T → Bool) (hswo : IsSWO lt) (st : EHeapQ T)
    (hne : 0 < st.heap.length) (ho : heapOrd lt st.heap) :
    get_top st = ((.ok (gv st.heap 0) : Except (Err Unit) T), st) ∧
    ∀ y ∈ st.heap, lt y (gv st.heap 0) = false := by
  constructor
  · unfold get_top
    rw [if_neg (by omega)]
  · intro y hy
    obtain ⟨i, hi, rfl⟩ := mem_iff_gv.mp hy
    exact heapOrd_root_min hswo ho hi

/-- Witness for C10 at a concrete input: the heap `[1, 2, 3]`. -/
theorem c10_get_top_min_witness :
    get_top stPushes123 = ((.ok (gv stPushes123.heap 0) : Except (Err Unit) Nat),
      stPushes123) ∧
    ∀ y ∈ stPushes123.heap, natLt y (gv stPushes123.heap 0) = false :=
  c10_get_top_min natLt natLt_swo stPushes123 (by decide) (by decide)

end Claims

end Fext
